import Mathlib

/-!
Verification of the djagger schema-generation core.

This file gives a shallow embedding, in Lean 4, of the parts of the djagger
code base (an OpenAPI document generator for Django projects) that the
verified claims are about:

* `djagger/enums.py` — the attribute catalogue and
  `DjaggerViewAttributes.from_view` attribute resolution;
* `djagger/openapi.py` — `Operation` extraction helpers, the exclusion
  short-circuit in `Operation._from`, `Path.create`, the paths filter in
  `Document.generate`, `Reference.dereference` and `Components.merge`;
* `djagger/serializers.py` — `SerializerConverter.from_serializer` and
  `SerializerConverter.infer_field_type`;
* `djagger/utils.py` — `extract_unique_schema`.

Python views are modelled as attribute bags (ordered association lists of
attribute name to value) together with the `__name__`, `__module__`,
`__doc__` metadata and the sets of callable verb methods the generator
probes.  Python values that can sit in a djagger attribute are modelled by
the inductive `AttrValue`; Python truthiness on those values by `truthy`.
The external pydantic library's `.schema(ref_template=...)` call, which the
core only consumes, is modelled by `pschemaProps`/`defsOfProps` over a
model tree `PType`: nested models are emitted as `$ref` objects and
collected into a flat definitions map keyed by model name, mirroring
pydantic v1's documented behaviour (enums are inlined).
-/

namespace Djagger

/-- Raw Python values usable as choice keys and defaults (heterogeneous). -/
inductive PyVal where
  | str (s : String)
  | int (n : Int)
  | bool (b : Bool)
deriving DecidableEq

/-- JSON-like values: the shape of pydantic `.schema()` output and of the
dict/list trees walked by `Reference.dereference`. -/
inductive JVal where
  | null
  | bool (b : Bool)
  | num (n : Int)
  | str (s : String)
  | arr (xs : List JVal)
  | obj (fs : List (String × JVal))

/-- A field type as classified by `SerializerConverter.infer_field_type` /
pydantic: primitives, enums (from choice fields), lists, dicts and nested
models.  A nested model carries its name, its ordered properties and its
`required` list, exactly the data pydantic's schema generation consumes. -/
inductive PType where
  | prim (t : String)
  | enum (name : String) (values : List PyVal)
  | listOf (t : PType)
  | dictOf (t : PType)
  | nested (name : String) (props : List (String × PType)) (required : List String)

/-- A pydantic model (the result of `create_model` or a declared
`BaseModel`): name, ordered field list, required-field names, docstring. -/
structure PModel where
  name : String
  props : List (String × PType)
  required : List String
  doc : Option String

/-- DRF serializer field kinds, as distinguished by
`SerializerConverter.from_serializer` / `infer_field_type`.  `choices` is
the ordered key-to-display-name association underlying `field.choices`. -/
inductive DRFField where
  | boolean
  | char
  | email
  | integer
  | floatF
  | choice (choices : List (PyVal × PyVal))
  | multipleChoice (choices : List (PyVal × PyVal))
  | listField (child : DRFField)
  | dictField (child : DRFField)
  | nestedSerializer (name : String) (fields : List (String × Bool × Option PyVal × DRFField))
  | listSerializer (name : String) (fields : List (String × Bool × Option PyVal × DRFField))

/-- A DRF serializer: a name and an ordered field map; each field carries
`required : Bool`, `default : Option PyVal` (`none` models `fields.empty`)
and its field kind. -/
structure Serializer where
  name : String
  fields : List (String × Bool × Option PyVal × DRFField)
  doc : Option String

/-- Python values that may appear in a djagger view attribute. -/
inductive AttrValue where
  | none
  | bool (b : Bool)
  | int (n : Int)
  | str (s : String)
  | list (xs : List AttrValue)
  | dict (xs : List (String × AttrValue))
  | model (m : PModel)
  | serializer (s : Serializer)

/-- Python truthiness of an `AttrValue`: `None`, `False`, `0`, `""`, `[]`
and `{}` are falsy; class objects (models, serializers) are truthy. -/
def truthy : AttrValue → Bool
  | .none => false
  | .bool b => b
  | .int n => n != 0
  | .str s => s != ""
  | .list xs => !xs.isEmpty
  | .dict xs => !xs.isEmpty
  | .model _ => true
  | .serializer _ => true

/-- First-match lookup in an attribute bag: `getattr(view, k)` succeeds
with the first binding of `k`, fails (`none`) when `k` is unbound. -/
def getattrOpt (attrs : List (String × AttrValue)) (k : String) : Option AttrValue :=
  match attrs with
  | [] => Option.none
  | (k0, v) :: rest => if k0 = k then some v else getattrOpt rest k

/-- A Django view (class- or function-based) as the generator sees it:
an attribute bag plus the dunder metadata and method surface it probes. -/
structure View where
  attrs : List (String × AttrValue)
  name : String
  module : String
  doc : Option String
  isClass : Bool
  methods : List String
  actions : Option (List String)
  djaggerHttpMethods : Option (List String)

/-- `getattr(view, k, default)`. -/
def View.getattrD (v : View) (k : String) (d : AttrValue) : AttrValue :=
  (getattrOpt v.attrs k).getD d

/-- `hasattr(view, k)`. -/
def View.hasattrB (v : View) (k : String) : Bool :=
  (getattrOpt v.attrs k).isSome

/-- `DjaggerViewAttributes.from_view` (enums.py): with an http method,
`getattr(view, f"{method}_{attr}", getattr(view, attr, None))`; without,
`getattr(view, attr, None)`.  The operation-level attribute wins whenever
it is *present*, regardless of the truthiness of its value. -/
def from_view (v : View) (attr_name : String) (http_method : Option String) : AttrValue :=
  match http_method with
  | some m => v.getattrD (m ++ "_" ++ attr_name) (v.getattrD attr_name .none)
  | Option.none => v.getattrD attr_name .none

/-- `Operation._extract_summary` (openapi.py): a *truthiness* chain —
`getattr(view, f"{m}_summary", None)`, falling back to the API-level
`summary` when the operation-level value is falsy, and finally to
`view.__name__`. -/
def extract_summary (v : View) (m : String) : AttrValue :=
  let op := v.getattrD (m ++ "_summary") .none
  let s := if truthy op then op else v.getattrD "summary" .none
  if truthy s then s else .str v.name

/-- Keys of a Python dict built by inserting the given (key, value) pairs
in order: first occurrence of each key keeps its position, duplicates are
dropped.  This is `list(field.choices.keys())` for a DRF choice field. -/
def dedupFirst : List PyVal → List PyVal
  | [] => []
  | x :: xs => x :: (dedupFirst xs).filter (· ≠ x)

/-- The field names appended to `Config.schema_extra['required']` by
`SerializerConverter.from_serializer`: fields with `field.required` true,
in declaration order, regardless of any declared default. -/
def requiredNames (fs : List (String × Bool × Option PyVal × DRFField)) : List String :=
  match fs with
  | [] => []
  | (fname, req, _, _) :: rest =>
      if req then fname :: requiredNames rest else requiredNames rest

mutual

/-- `SerializerConverter.infer_field_type` (serializers.py): nested
serializers recurse through `from_serializer`; `DictField` with a child
becomes `Dict[str, child]`; `ChoiceField`/`MultipleChoiceField` become a
dynamically created `Enum` named after the field whose member values are
`list(field.choices.keys())` — the raw keys, kept in declaration order
with no coercion; other kinds map through the primitive `mappings` table
(`ListField` maps to the bare `List`, rendered here as an opaque
primitive; a `ListSerializer` reaching this function falls through every
branch and yields Python `None`, rendered here as the opaque primitive
`"None"`). -/
def inferFieldType (field : DRFField) (field_name : String) : PType :=
  match field with
  | .nestedSerializer n fs => .nested n (serializerProps fs) (requiredNames fs)
  | .dictField child => .dictOf (inferFieldType child field_name)
  | .choice cs => .enum field_name (dedupFirst (cs.map Prod.fst))
  | .multipleChoice cs => .enum field_name (dedupFirst (cs.map Prod.fst))
  | .boolean => .prim "boolean"
  | .char => .prim "string"
  | .email => .prim "string"
  | .integer => .prim "integer"
  | .floatF => .prim "number"
  | .listField _ => .prim "List"
  | .listSerializer _ _ => .prim "None"

/-- The ordered `create_model` field map built by `from_serializer`'s
field loop: `ListSerializer` fields become `List[from_serializer(child)]`,
`ListField` becomes `List[infer_field_type(child)]`, nested serializers
recurse, and everything else goes through `infer_field_type`. -/
def serializerProps (fs : List (String × Bool × Option PyVal × DRFField)) :
    List (String × PType) :=
  match fs with
  | [] => []
  | (fname, _, _, ftype) :: rest =>
      (fname, match ftype with
        | .listSerializer n nfs => .listOf (.nested n (serializerProps nfs) (requiredNames nfs))
        | .listField child => .listOf (inferFieldType child fname)
        | .nestedSerializer n nfs => .nested n (serializerProps nfs) (requiredNames nfs)
        | f => inferFieldType f fname) :: serializerProps rest

end

/-- `SerializerConverter.from_serializer` (serializers.py): converts a DRF
serializer into a pydantic model.  A field enters the model's `required`
list iff `field.required` is true; a declared default is only used as the
pydantic default of non-required fields and never raises. -/
def fromSerializer (s : Serializer) : PModel :=
  { name := s.name
    props := serializerProps s.fields
    required := requiredNames s.fields
    doc := s.doc }

/-- JSON rendering of a raw choice value (no coercion to string). -/
def pyToJ : PyVal → JVal
  | .str s => .str s
  | .int n => .num n
  | .bool b => .bool b

mutual

/-- Modelled from the external pydantic v1 `.schema(ref_template=...)`
behaviour the core consumes: the in-place JSON schema of one field type.
Nested models are emitted as a single `$ref` object whose target string is
the ref template applied to the model name; enums are inlined. -/
def schemaOfType (tpl : String → String) (t : PType) : JVal :=
  match t with
  | .prim ty => .obj [("type", .str ty)]
  | .enum n vs => .obj [("title", .str n), ("enum", .arr (vs.map pyToJ))]
  | .listOf t1 => .obj [("type", .str "array"), ("items", schemaOfType tpl t1)]
  | .dictOf t1 => .obj [("type", .str "object"), ("additionalProperties", schemaOfType tpl t1)]
  | .nested n _ _ => .obj [("$ref", .str (tpl n))]

/-- The `properties` map of a model schema, field by field. -/
def propsSchema (tpl : String → String) (ps : List (String × PType)) :
    List (String × JVal) :=
  match ps with
  | [] => []
  | (k, t) :: rest => (k, schemaOfType tpl t) :: propsSchema tpl rest

end

/-- The standalone schema object of one nested model, as it appears as a
`definitions` entry. -/
def defBody (tpl : String → String) (n : String) (ps : List (String × PType))
    (req : List String) : JVal :=
  .obj [("title", .str n), ("type", .str "object"),
        ("properties", .obj (propsSchema tpl ps)),
        ("required", .arr (req.map .str))]

mutual

/-- All `definitions` entries contributed by one field type, transitively
(pydantic keeps a flat definitions map), in encounter order, possibly with
repeats (deduplication happens in `dedupKeys`). -/
def defsOfType (tpl : String → String) (t : PType) : List (String × JVal) :=
  match t with
  | .prim _ => []
  | .enum _ _ => []
  | .listOf t1 => defsOfType tpl t1
  | .dictOf t1 => defsOfType tpl t1
  | .nested n ps req => (n, defBody tpl n ps req) :: defsOfProps tpl ps

/-- `defsOfType` over a property list. -/
def defsOfProps (tpl : String → String) (ps : List (String × PType)) :
    List (String × JVal) :=
  match ps with
  | [] => []
  | (_, t) :: rest => defsOfType tpl t ++ defsOfProps tpl rest

end

mutual

/-- The names of the nested models reachable from a field type. -/
def nestedNamesT : PType → List String
  | .prim _ => []
  | .enum _ _ => []
  | .listOf t1 => nestedNamesT t1
  | .dictOf t1 => nestedNamesT t1
  | .nested n ps _ => n :: nestedNamesProps ps

/-- `nestedNamesT` over a property list. -/
def nestedNamesProps : List (String × PType) → List String
  | [] => []
  | (_, t) :: rest => nestedNamesT t ++ nestedNamesProps rest

end

/-- Python-dict deduplication of an association list: the first occurrence
of each key wins and keeps its position. -/
def dedupKeys : List (String × JVal) → List (String × JVal)
  | [] => []
  | (k, v) :: rest => (k, v) :: (dedupKeys rest).filter (fun p => p.1 ≠ k)

/-- Modelled from the external pydantic v1 `model.schema(ref_template)`
call: the top-level model is inlined, every reachable nested model is
collected once into the flat `definitions` map keyed by its (unsuffixed)
class name. -/
def pschema (m : PModel) (tpl : String → String) : JVal × List (String × JVal) :=
  (defBody tpl m.name m.props m.required,
   dedupKeys (defsOfProps tpl m.props))

/-- The result of `extract_unique_schema`: the schema dict, with its
`definitions` key held separately. -/
structure ExtractedSchema where
  schema : JVal
  definitions : List (String × JVal)

/-- `extract_unique_schema` (utils.py): calls `.schema()` with ref
template `'#/definitions/{model}' + '-' + suffix` and renames every
definitions key to `key + '-' + suffix` so the `$ref`s stay valid.  The
`suffix` argument models the `uuid.uuid4().hex` value drawn at the start
of each call (a fresh 32-character token per call), made an explicit
parameter here. -/
def extract_unique_schema (m : PModel) (suffix : String) : ExtractedSchema :=
  let tpl := fun n => "#/definitions/" ++ n ++ "-" ++ suffix
  let sd := pschema m tpl
  { schema := sd.1
    definitions := sd.2.map (fun kv => (kv.1 ++ "-" ++ suffix, kv.2)) }

/-- First-match lookup in a JSON object / definitions dict
(`definitions.get(name)`). -/
def jLookup (fs : List (String × JVal)) (k : String) : Option JVal :=
  match fs with
  | [] => Option.none
  | (k0, v) :: rest => if k0 = k then some v else jLookup rest k

/-- Validation of the `ref_ : str` pydantic field: only a JSON string is
accepted. -/
def strRef : JVal → Option String
  | .str s => some s
  | _ => Option.none

/-- `Reference.to_ref` (openapi.py): a dict parses as a `Reference` when
its `$ref` alias (or, by `allow_population_by_field_name`, the `ref_`
field name) holds a string; extra keys are ignored (pydantic v1 default);
any other value is rejected (`None`). -/
def toRef : JVal → Option String
  | .obj fs =>
      match jLookup fs "$ref" with
      | some v => strRef v
      | Option.none =>
          match jLookup fs "ref_" with
          | some v => strRef v
          | Option.none => Option.none
  | _ => Option.none

/-- `"a/b/c".split("/")` on the underlying character list. -/
def splitSegs : List Char → List (List Char)
  | [] => [[]]
  | c :: cs =>
      let rest := splitSegs cs
      if c = '/' then [] :: rest
      else
        match rest with
        | s :: ss => (c :: s) :: ss
        | [] => [[c]]

/-- `Reference.ref_name` (openapi.py): `self.ref_.split("/")[-1]`. -/
def refName (r : String) : String :=
  String.mk ((splitSegs r.data).getLastD [])

mutual

/-- Every `$ref` target string occurring in a JSON tree (the tree's own
reference, if it is one, plus those of all sub-values). -/
def collectRefs (j : JVal) : List String :=
  match j with
  | .obj fs => (match toRef (.obj fs) with
      | some r => [r]
      | Option.none => []) ++ collectRefsFs fs
  | .arr xs => collectRefsArr xs
  | _ => []

/-- `collectRefs` over object fields. -/
def collectRefsFs (fs : List (String × JVal)) : List String :=
  match fs with
  | [] => []
  | (_, v) :: rest => collectRefs v ++ collectRefsFs rest

/-- `collectRefs` over array elements. -/
def collectRefsArr (xs : List JVal) : List String :=
  match xs with
  | [] => []
  | v :: rest => collectRefs v ++ collectRefsArr rest

end

/-- One loop iteration of `Reference.dereference`, parameterised by the
recursive call: a value recognised as a `Reference` is replaced by the
dereferenced `definitions.get(ref_name, {})` body — a *missing* target
silently becomes the empty dict — dict and list values are dereferenced
recursively; any other value is kept. -/
def derefStep (defs : List (String × JVal)) (rec : JVal → JVal) (v : JVal) : JVal :=
  match toRef v with
  | some r => rec ((jLookup defs (refName r)).getD (.obj []))
  | Option.none =>
      match v with
      | .obj fs1 => rec (.obj fs1)
      | .arr xs1 => rec (.arr xs1)
      | v1 => v1

/-- `Reference.dereference` (openapi.py): walks a dict or list applying
`derefStep` to every member value; other values (including the root when
it is not a dict or list — in particular a root-level reference object)
are returned unchanged.  `fuel` bounds the recursion depth of the Python
call, which has no such bound; every theorem below supplies enough fuel
for the recursion to complete. -/
def deref (defs : List (String × JVal)) (fuel : Nat) (j : JVal) : JVal :=
  match fuel with
  | 0 => j
  | n + 1 =>
      match j with
      | .obj fs => .obj (fs.map (fun kv => (kv.1, derefStep defs (fun x => deref defs n x) kv.2)))
      | .arr xs => .arr (xs.map (fun v => derefStep defs (fun x => deref defs n x) v))
      | v => v

mutual

/-- A JSON tree is reference-free when no sub-value of it parses as a
`Reference`. -/
def refFree (j : JVal) : Bool :=
  match j with
  | .obj fs => (toRef (.obj fs)).isNone && refFreeFs fs
  | .arr xs => refFreeArr xs
  | _ => true

/-- `refFree` over object fields. -/
def refFreeFs (fs : List (String × JVal)) : Bool :=
  match fs with
  | [] => true
  | (_, v) :: rest => refFree v && refFreeFs rest

/-- `refFree` over array elements. -/
def refFreeArr (xs : List JVal) : Bool :=
  match xs with
  | [] => true
  | v :: rest => refFree v && refFreeArr rest

end

mutual

/-- Depth of a JSON tree (leaves have depth 1). -/
def jdepth (j : JVal) : Nat :=
  match j with
  | .obj fs => 1 + jdepthFs fs
  | .arr xs => 1 + jdepthArr xs
  | _ => 1

/-- Maximal depth over object fields. -/
def jdepthFs (fs : List (String × JVal)) : Nat :=
  match fs with
  | [] => 0
  | (_, v) :: rest => max (jdepth v) (jdepthFs rest)

/-- Maximal depth over array elements. -/
def jdepthArr (xs : List JVal) : Nat :=
  match xs with
  | [] => 0
  | v :: rest => max (jdepth v) (jdepthArr rest)

end

/-! ### Association-list and helper lemmas -/

theorem getattrOpt_cons_ne (k0 k : String) (x : AttrValue)
    (rest : List (String × AttrValue)) (h : k0 ≠ k) :
    getattrOpt ((k0, x) :: rest) k = getattrOpt rest k := by
  simp [getattrOpt, h]

theorem dedupFirst_eq_self (l : List PyVal) (h : l.Nodup) : dedupFirst l = l := by
  induction l with
  | nil => rfl
  | cons x xs ih =>
    have hx : x ∉ xs := (List.nodup_cons.mp h).1
    have hxs := ih (List.nodup_cons.mp h).2
    simp only [dedupFirst, hxs]
    congr 1
    apply List.filter_eq_self.mpr
    intro a ha
    simp only [decide_eq_true_eq]
    intro hax
    exact hx (hax ▸ ha)

/-! ### C1 — attribute resolution: operation-level precedence -/

/-- A view with `summary="A"` and a present but *falsy* operation-level
`get_summary=""`. -/
def summaryView : View :=
  { attrs := [("summary", AttrValue.str "A"), ("get_summary", AttrValue.str "")]
    name := "MyView"
    module := "app1.views"
    doc := Option.none
    isClass := true
    methods := ["get"]
    actions := Option.none
    djaggerHttpMethods := Option.none }

/-- C1, counterexample.  The claim says resolution returns the
operation-level attribute's value whenever it is *present*, even when
falsy (empty string), for every attribute key — and its cited sources
include `Operation._extract_summary`.  On a view with `summary="A"` and
`get_summary=""` (present, falsy), `_extract_summary` returns `"A"` for
the GET operation, not the present operation-level `""`: the openapi
extraction helpers test truthiness (`if not self.summary`), not
presence. -/
theorem extract_summary_falsy_present_op_level_loses :
    extract_summary summaryView "get" = AttrValue.str "A" ∧
    extract_summary summaryView "get" ≠ AttrValue.str "" := by
  have e : extract_summary summaryView "get" = AttrValue.str "A" := rfl
  refine ⟨e, ?_⟩
  rw [e]
  intro h
  injection h with h1
  exact absurd h1 (by decide)

/-- C1, amended.  `from_view` (enums.py) resolution is presence-based: a
present operation-level attribute is returned whatever its truthiness,
the API-level attribute is consulted only when the operation-level one is
absent.  But the openapi `Operation` extraction helpers, here
`_extract_summary`, are truthiness-based: a present-but-falsy
operation-level value is skipped in favour of the API-level attribute; a
truthy operation-level value wins.  In particular a handler with
`summary="A"` and `get_summary="B"` yields summary `"B"` for GET and
`"A"` for any other verb, in both resolvers. -/
theorem from_view_presence_extract_summary_truthiness :
    (∀ (v : View) (attr m : String) (val : AttrValue),
        getattrOpt v.attrs (m ++ "_" ++ attr) = some val →
        from_view v attr (some m) = val) ∧
    (∀ (v : View) (attr m : String),
        getattrOpt v.attrs (m ++ "_" ++ attr) = Option.none →
        from_view v attr (some m) = v.getattrD attr AttrValue.none) ∧
    (∀ (v : View) (m : String) (op api : AttrValue),
        getattrOpt v.attrs (m ++ "_summary") = some op → truthy op = false →
        getattrOpt v.attrs "summary" = some api → truthy api = true →
        extract_summary v m = api) ∧
    (∀ (v : View) (m : String) (op : AttrValue),
        getattrOpt v.attrs (m ++ "_summary") = some op → truthy op = true →
        extract_summary v m = op) ∧
    (∀ (v : View) (m : String),
        getattrOpt v.attrs "summary" = some (AttrValue.str "A") →
        getattrOpt v.attrs "get_summary" = some (AttrValue.str "B") →
        extract_summary v "get" = AttrValue.str "B" ∧
        (getattrOpt v.attrs (m ++ "_summary") = Option.none →
         extract_summary v m = AttrValue.str "A")) := by
  refine ⟨?_, ?_, ?_, ?_, ?_⟩
  · intro v attr m val h
    simp [from_view, View.getattrD, h]
  · intro v attr m h
    simp [from_view, View.getattrD, h]
  · intro v m op api hop hfalse hapi htrue
    simp [extract_summary, View.getattrD, hop, hfalse, hapi, htrue]
  · intro v m op hop htrue
    simp [extract_summary, View.getattrD, hop, htrue]
  · intro v m hapi hget
    constructor
    · have hk : ("get" ++ "_summary") = "get_summary" := rfl
      simp [extract_summary, View.getattrD, hk, hget, truthy]
    · intro hnone
      simp [extract_summary, View.getattrD, hnone, hapi, truthy]

/-- A view with `summary="A"` and a truthy `get_summary="B"` and no
`post_summary`. -/
def summaryViewAB : View :=
  { summaryView with
    attrs := [("summary", AttrValue.str "A"), ("get_summary", AttrValue.str "B")]
    methods := ["get", "post"] }

/-- C1, witness: on `summaryViewAB`, GET resolves to the operation-level
`"B"` and POST falls back to the API-level `"A"`. -/
theorem from_view_presence_extract_summary_truthiness_witness :
    extract_summary summaryViewAB "get" = AttrValue.str "B" ∧
    extract_summary summaryViewAB "post" = AttrValue.str "A" :=
  ⟨(from_view_presence_extract_summary_truthiness.2.2.2.2 summaryViewAB "post" rfl rfl).1,
   (from_view_presence_extract_summary_truthiness.2.2.2.2 summaryViewAB "post" rfl rfl).2 rfl⟩

/-! ### C5 / C7 — required-field policy of the serializer converter -/

/-- A serializer declaring a single field that is both mandatory and has a
default value. -/
def bothSer : Serializer :=
  { name := "S"
    fields := [("f", true, some (PyVal.int 0), DRFField.integer)]
    doc := Option.none }

/-- C5, counterexample.  The claim says a field is required iff mandatory
*and* without a default, and that a field declaring both raises a
`SchemaDeclarationError`.  `from_serializer` has no such error (the name
does not occur in the code base): on a field with `required=True` and
`default=0` it silently returns a model marking the field required — the
conversion is total and the default plays no part in requiredness. -/
theorem from_serializer_required_with_default_no_error :
    (fromSerializer bothSer).required = ["f"] := rfl

/-- C5, amended.  `from_serializer` marks a field required iff the source
declares it mandatory (`field.required`), regardless of any declared
default; a field with both mandatory and a default is silently marked
required, and no error is raised (the conversion is a total function). -/
theorem mem_requiredNames_iff (fs : List (String × Bool × Option PyVal × DRFField))
    (fname : String) :
    fname ∈ requiredNames fs ↔ ∃ d t, (fname, true, d, t) ∈ fs := by
  induction fs with
  | nil => simp [requiredNames]
  | cons f rest ih =>
    obtain ⟨g, r, d0, t0⟩ := f
    simp only [requiredNames]
    by_cases hr : r
    · subst hr
      rw [if_pos rfl]
      constructor
      · intro h
        rcases List.mem_cons.mp h with h1 | h1
        · exact ⟨d0, t0, by simp [h1]⟩
        · obtain ⟨d, t, hm⟩ := ih.mp h1
          exact ⟨d, t, List.mem_cons_of_mem _ hm⟩
      · rintro ⟨d, t, hm⟩
        rcases List.mem_cons.mp hm with h1 | h1
        · rw [List.mem_cons]
          left
          exact congrArg Prod.fst h1
        · exact List.mem_cons_of_mem _ (ih.mpr ⟨d, t, h1⟩)
    · rw [if_neg hr]
      rw [ih]
      constructor
      · rintro ⟨d, t, hm⟩
        exact ⟨d, t, List.mem_cons_of_mem _ hm⟩
      · rintro ⟨d, t, hm⟩
        rcases List.mem_cons.mp hm with h1 | h1
        · exact absurd (congrArg (fun p => p.2.1) h1).symm (by simpa using hr)
        · exact ⟨d, t, h1⟩

theorem assoc_entry_unique {α : Type} (l : List (String × α))
    (h : (l.map Prod.fst).Nodup) (k : String) (a b : α)
    (ha : (k, a) ∈ l) (hb : (k, b) ∈ l) : a = b := by
  induction l with
  | nil => simp at ha
  | cons f rest ih =>
    obtain ⟨g, x⟩ := f
    simp only [List.map_cons, List.nodup_cons] at h
    rcases List.mem_cons.mp ha with h1 | h1 <;> rcases List.mem_cons.mp hb with h2 | h2
    · have e1 := congrArg Prod.snd h1
      have e2 := congrArg Prod.snd h2
      exact e1.trans e2.symm
    · exfalso
      apply h.1
      have : g = k := (congrArg Prod.fst h1).symm
      subst this
      exact List.mem_map.mpr ⟨(g, b), h2, rfl⟩
    · exfalso
      apply h.1
      have : g = k := (congrArg Prod.fst h2).symm
      subst this
      exact List.mem_map.mpr ⟨(g, a), h1, rfl⟩
    · exact ih h.2 h1 h2

theorem from_serializer_required_iff_mandatory
    (s : Serializer) (fname : String) (req : Bool) (dflt : Option PyVal)
    (ftype : DRFField)
    (hnd : (s.fields.map Prod.fst).Nodup)
    (hmem : (fname, req, dflt, ftype) ∈ s.fields) :
    fname ∈ (fromSerializer s).required ↔ req = true := by
  show fname ∈ requiredNames s.fields ↔ req = true
  rw [mem_requiredNames_iff]
  constructor
  · rintro ⟨d, t, hm⟩
    have := assoc_entry_unique s.fields hnd fname (true, d, t) (req, dflt, ftype) hm hmem
    exact (congrArg (fun p => p.1) this).symm
  · intro hreq
    subst hreq
    exact ⟨dflt, ftype, hmem⟩

/-- C5, witness: the amended theorem instantiated on a two-field
serializer — the mandatory field is in `required`, the defaulted optional
field is not. -/
theorem from_serializer_required_iff_mandatory_witness :
    ("a" ∈ (fromSerializer (Serializer.mk "W"
        [("a", true, Option.none, DRFField.char),
         ("b", false, some (PyVal.int 0), DRFField.integer)] Option.none)).required) ∧
    ¬ ("b" ∈ (fromSerializer (Serializer.mk "W"
        [("a", true, Option.none, DRFField.char),
         ("b", false, some (PyVal.int 0), DRFField.integer)] Option.none)).required) := by
  constructor
  · exact (from_serializer_required_iff_mandatory _ "a" true Option.none DRFField.char
      (by decide) (by simp)).mpr rfl
  · intro hmem
    have := (from_serializer_required_iff_mandatory _ "b" false (some (PyVal.int 0))
      DRFField.integer (by decide) (by simp)).mp hmem
    exact absurd this (by decide)

/-- The round-trip serializer of the claim: a required string field `s`
and an optional integer field `i` with default `0`. -/
def roundTripSer : Serializer :=
  { name := "RT"
    fields := [("s", true, Option.none, DRFField.char),
               ("i", false, some (PyVal.int 0), DRFField.integer)]
    doc := Option.none }

/-- C7: normalizing a declarative schema with a required string field and
an optional defaulted integer field yields a model whose `required` list
is exactly `["s"]`. -/
theorem roundtrip_required_exactly_string_field :
    (fromSerializer roundTripSer).required = ["s"] := rfl

/-! ### C6 — enum extraction from choice fields -/

/-- C6: for a choice or multiple-choice field whose declared keys are
distinct, `infer_field_type` produces an enum named after the field whose
values are exactly the raw choice keys, in declaration order, with their
original types. -/
theorem choice_field_enum_values (cs : List (PyVal × PyVal)) (fname : String)
    (h : (cs.map Prod.fst).Nodup) :
    inferFieldType (DRFField.choice cs) fname = PType.enum fname (cs.map Prod.fst) ∧
    inferFieldType (DRFField.multipleChoice cs) fname = PType.enum fname (cs.map Prod.fst) := by
  constructor
  · show PType.enum fname (dedupFirst (cs.map Prod.fst)) = _
    rw [dedupFirst_eq_self _ h]
  · show PType.enum fname (dedupFirst (cs.map Prod.fst)) = _
    rw [dedupFirst_eq_self _ h]

/-- C6, witness: choices `[("A",1),("B",2)]` yield the enum with values
`"A"` then `"B"`; a heterogeneous choice list keeps its raw types. -/
theorem choice_field_enum_values_witness :
    inferFieldType (DRFField.choice [(PyVal.str "A", PyVal.int 1), (PyVal.str "B", PyVal.int 2)])
      "kind" = PType.enum "kind" [PyVal.str "A", PyVal.str "B"] ∧
    inferFieldType (DRFField.multipleChoice [(PyVal.int 7, PyVal.str "seven"), (PyVal.str "x", PyVal.str "ex")])
      "mix" = PType.enum "mix" [PyVal.int 7, PyVal.str "x"] :=
  ⟨(choice_field_enum_values [(PyVal.str "A", PyVal.int 1), (PyVal.str "B", PyVal.int 2)]
      "kind" (by decide)).1,
   (choice_field_enum_values [(PyVal.int 7, PyVal.str "seven"), (PyVal.str "x", PyVal.str "ex")]
      "mix" (by decide)).2⟩

/-! ### String and association-list lemmas for the definitions machinery -/

theorem string_data_append (s t : String) : (s ++ t).data = s.data ++ t.data := by
  cases s
  cases t
  rfl

theorem string_append_assoc (a b c : String) : a ++ b ++ c = a ++ (b ++ c) := by
  apply String.ext
  rw [string_data_append, string_data_append, string_data_append, string_data_append,
    List.append_assoc]

theorem string_append_right_cancel (a b c : String) (h : a ++ c = b ++ c) : a = b := by
  apply String.ext
  have hd := congrArg String.data h
  rw [string_data_append, string_data_append] at hd
  exact List.append_inj_left' hd (by rfl)

/-- Two keys suffixed with distinct tokens of equal length are distinct,
whatever their base names. -/
theorem suffix_key_ne (b1 s1 b2 s2 : String) (hlen : s1.length = s2.length)
    (hne : s1 ≠ s2) : b1 ++ "-" ++ s1 ≠ b2 ++ "-" ++ s2 := by
  intro h
  apply hne
  apply String.ext
  have hd := congrArg String.data h
  rw [string_data_append, string_data_append] at hd
  exact List.append_inj_right' hd hlen

theorem jLookup_mem (fs : List (String × JVal)) (k : String) (v : JVal)
    (h : jLookup fs k = some v) : (k, v) ∈ fs := by
  induction fs with
  | nil => simp [jLookup] at h
  | cons p rest ih =>
    obtain ⟨k0, v0⟩ := p
    by_cases hk : k0 = k
    · subst hk
      rw [jLookup, if_pos rfl] at h
      cases h
      exact List.mem_cons_self _ _
    · rw [jLookup, if_neg hk] at h
      exact List.mem_cons_of_mem _ (ih h)

theorem strRef_eq_none (v : JVal) (hv : ∀ s, v ≠ JVal.str s) :
    strRef v = Option.none := by
  match v with
  | .str s => exact absurd rfl (hv s)
  | .null | .bool _ | .num _ | .arr _ | .obj _ => rfl

theorem strRef_none_iff (v : JVal) :
    strRef v = Option.none ↔ ∀ s, v ≠ JVal.str s := by
  constructor
  · intro h s hc
    rw [hc] at h
    cases h
  · exact strRef_eq_none v

/-- An object none of whose values is a JSON string cannot parse as a
`Reference`. -/
theorem toRef_none_of_no_str_values (fs : List (String × JVal))
    (h : ∀ p ∈ fs, ∀ s, p.2 ≠ JVal.str s) : toRef (.obj fs) = Option.none := by
  rw [toRef]
  match h1 : jLookup fs "$ref" with
  | Option.none =>
    match h2 : jLookup fs "ref_" with
    | Option.none => rfl
    | some v =>
      show strRef v = Option.none
      exact strRef_eq_none v (h _ (jLookup_mem _ _ _ h2))
  | some v =>
    show strRef v = Option.none
    exact strRef_eq_none v (h _ (jLookup_mem _ _ _ h1))

theorem schemaOfType_obj (tpl : String → String) (t : PType) :
    ∃ fs, schemaOfType tpl t = .obj fs := by
  cases t <;> exact ⟨_, rfl⟩

theorem propsSchema_values_obj (tpl : String → String) (ps : List (String × PType))
    (p : String × JVal) (hp : p ∈ propsSchema tpl ps) : ∃ fs, p.2 = .obj fs := by
  induction ps with
  | nil => simp [propsSchema] at hp
  | cons q rest ih =>
    obtain ⟨k, t⟩ := q
    rw [propsSchema] at hp
    rcases List.mem_cons.mp hp with h1 | h1
    · obtain ⟨fs, hfs⟩ := schemaOfType_obj tpl t
      exact ⟨fs, by rw [h1]; exact hfs⟩
    · exact ih h1

theorem collectRefsArr_mapStr (l : List String) :
    collectRefsArr (l.map JVal.str) = [] := by
  induction l with
  | nil => rfl
  | cons x xs ih => simp [collectRefsArr, collectRefs, ih]

theorem collectRefsArr_pyToJ (vs : List PyVal) :
    collectRefsArr (vs.map pyToJ) = [] := by
  induction vs with
  | nil => rfl
  | cons v rest ih =>
    cases v <;> simp [collectRefsArr, collectRefs, pyToJ, ih]

/-- Python-dict key deduplication at the level of key lists. -/
def dedupStr : List String → List String
  | [] => []
  | x :: xs => x :: (dedupStr xs).filter (· ≠ x)

theorem mapFst_filter_key (l : List (String × JVal)) (k : String) :
    (l.filter (fun p => p.1 ≠ k)).map Prod.fst = (l.map Prod.fst).filter (· ≠ k) := by
  induction l with
  | nil => rfl
  | cons p rest ih =>
    obtain ⟨k0, v0⟩ := p
    rw [List.filter_cons, List.map_cons, List.filter_cons]
    by_cases hk : k0 = k
    · subst hk
      rw [if_neg (by simp), if_neg (by simp)]
      exact ih
    · rw [if_pos (by simp [hk]), if_pos (by simp [hk]), List.map_cons, ih]

theorem mapFst_dedupKeys (l : List (String × JVal)) :
    (dedupKeys l).map Prod.fst = dedupStr (l.map Prod.fst) := by
  induction l with
  | nil => rfl
  | cons p rest ih =>
    obtain ⟨k, v⟩ := p
    simp only [dedupKeys, dedupStr, List.map_cons, List.cons.injEq, true_and]
    rw [mapFst_filter_key, ih]

theorem mem_dedupStr (l : List String) (x : String) :
    x ∈ dedupStr l ↔ x ∈ l := by
  induction l with
  | nil => simp [dedupStr]
  | cons y ys ih =>
    simp only [dedupStr, List.mem_cons, List.mem_filter]
    constructor
    · rintro (h | ⟨h, _⟩)
      · exact Or.inl h
      · exact Or.inr (ih.mp h)
    · rintro (h | h)
      · exact Or.inl h
      · by_cases hxy : x = y
        · exact Or.inl hxy
        · exact Or.inr ⟨ih.mpr h, by simpa using hxy⟩

theorem nodup_dedupStr (l : List String) : (dedupStr l).Nodup := by
  induction l with
  | nil => simp [dedupStr]
  | cons y ys ih =>
    rw [dedupStr, List.nodup_cons]
    constructor
    · intro hmem
      have := (List.mem_filter.mp hmem).2
      simp at this
    · exact List.Nodup.filter _ ih

theorem dedupKeys_entry_sub (l : List (String × JVal)) (p : String × JVal)
    (hp : p ∈ dedupKeys l) : p ∈ l := by
  induction l with
  | nil => simp [dedupKeys] at hp
  | cons q rest ih =>
    rw [dedupKeys] at hp
    rcases List.mem_cons.mp hp with h1 | h1
    · rw [h1]
      exact List.mem_cons_self _ _
    · exact List.mem_cons_of_mem _ (ih (List.mem_filter.mp h1).1)

theorem dedupKeys_eq_nil_iff (l : List (String × JVal)) :
    dedupKeys l = [] ↔ l = [] := by
  cases l with
  | nil => simp [dedupKeys]
  | cons p rest =>
    simp only [dedupKeys]
    constructor
    · intro h
      cases h
    · intro h
      cases h

/-! ### splitSegs / refName -/

theorem splitSegs_ne_nil (l : List Char) : splitSegs l ≠ [] := by
  match l with
  | [] => simp [splitSegs]
  | c :: cs =>
    simp only [splitSegs]
    split
    · simp
    · split <;> simp

theorem splitSegs_noslash (l : List Char) (h : '/' ∉ l) : splitSegs l = [l] := by
  induction l with
  | nil => rfl
  | cons c cs ih =>
    simp only [List.mem_cons, not_or] at h
    simp only [splitSegs, ih h.2]
    rw [if_neg (Ne.symm h.1)]

theorem splitSegs_len2 (l : List Char) (h : '/' ∈ l) : 2 ≤ (splitSegs l).length := by
  induction l with
  | nil => simp at h
  | cons c cs ih =>
    simp only [splitSegs]
    by_cases hc : c = '/'
    · rw [if_pos hc]
      have := List.length_pos.mpr (splitSegs_ne_nil cs)
      simp only [List.length_cons]
      omega
    · rw [if_neg hc]
      have hcs : '/' ∈ cs := by
        rcases List.mem_cons.mp h with h1 | h1
        · exact absurd h1.symm hc
        · exact h1
      have h2 := ih hcs
      match hr : splitSegs cs with
      | [] => exact absurd hr (splitSegs_ne_nil cs)
      | s :: ss =>
        rw [hr] at h2
        simpa using h2

theorem getLastD_cons_ne_nil (a : List Char) (l : List (List Char)) (h : l ≠ []) :
    (a :: l).getLastD [] = l.getLastD [] := by
  match l with
  | [] => simp at h
  | x :: xs => simp [List.getLastD_cons]

theorem getLastD_splitSegs_append (zs ys : List Char) (h : '/' ∉ ys) :
    (splitSegs (zs ++ '/' :: ys)).getLastD [] = ys := by
  induction zs with
  | nil =>
    simp only [List.nil_append, splitSegs, if_pos rfl, splitSegs_noslash ys h]
    rfl
  | cons c cs ih =>
    simp only [List.cons_append, splitSegs]
    by_cases hc : c = '/'
    · rw [if_pos hc, getLastD_cons_ne_nil _ _ (splitSegs_ne_nil _)]
      exact ih
    · rw [if_neg hc]
      have hlen : 2 ≤ (splitSegs (cs ++ '/' :: ys)).length :=
        splitSegs_len2 _ (by simp)
      match hr : splitSegs (cs ++ '/' :: ys) with
      | [] => exact absurd hr (splitSegs_ne_nil _)
      | s :: ss =>
        rw [hr] at hlen ih
        have hss : ss ≠ [] := by
          intro hnil
          rw [hnil] at hlen
          simp at hlen
        rw [getLastD_cons_ne_nil _ _ hss]
        rw [getLastD_cons_ne_nil _ _ hss] at ih
        exact ih

/-- `ref_name` of a reference produced with the standard
`#/definitions/...` template recovers the definitions key, for keys
containing no slash. -/
theorem refName_defs_key (k : String) (h : '/' ∉ k.data) :
    refName ("#/definitions/" ++ k) = k := by
  have hd : ("#/definitions/" ++ k).data =
      ('#' :: '/' :: "definitions".data) ++ '/' :: k.data := by
    rw [string_data_append]
    rfl
  rw [refName, hd, getLastD_splitSegs_append _ _ h]

/-! ### Keys and references of the generated definitions -/

mutual

theorem mapFst_defsOfType (tpl : String → String) (t : PType) :
    (defsOfType tpl t).map Prod.fst = nestedNamesT t :=
  match t with
  | .prim _ => rfl
  | .enum _ _ => rfl
  | .listOf t1 => mapFst_defsOfType tpl t1
  | .dictOf t1 => mapFst_defsOfType tpl t1
  | .nested n ps _ => congrArg (List.cons n) (mapFst_defsOfProps tpl ps)

theorem mapFst_defsOfProps (tpl : String → String) (ps : List (String × PType)) :
    (defsOfProps tpl ps).map Prod.fst = nestedNamesProps ps :=
  match ps with
  | [] => rfl
  | (_, t) :: rest => by
      show (defsOfType tpl t ++ defsOfProps tpl rest).map Prod.fst = _
      rw [List.map_append, mapFst_defsOfType tpl t, mapFst_defsOfProps tpl rest]
      rfl

end

mutual

theorem refs_schemaOfType (tpl : String → String) (t : PType) :
    ∀ r ∈ collectRefs (schemaOfType tpl t), ∃ n, n ∈ nestedNamesT t ∧ r = tpl n :=
  match t with
  | .prim ty => by
      intro r hr
      simp [schemaOfType, collectRefs, collectRefsFs, toRef, jLookup] at hr
  | .enum n vs => by
      intro r hr
      simp [schemaOfType, collectRefs, collectRefsFs, toRef, jLookup,
        collectRefsArr_pyToJ] at hr
  | .listOf t1 => by
      intro r hr
      simp only [schemaOfType, collectRefs, collectRefsFs, toRef, jLookup] at hr
      simp at hr
      exact refs_schemaOfType tpl t1 r hr
  | .dictOf t1 => by
      intro r hr
      simp only [schemaOfType, collectRefs, collectRefsFs, toRef, jLookup] at hr
      simp at hr
      exact refs_schemaOfType tpl t1 r hr
  | .nested n ps req => by
      intro r hr
      simp [schemaOfType, collectRefs, collectRefsFs, toRef, jLookup, strRef] at hr
      exact ⟨n, by simp [nestedNamesT], hr⟩

theorem refs_propsSchema (tpl : String → String) (ps : List (String × PType)) :
    ∀ r ∈ collectRefsFs (propsSchema tpl ps), ∃ n, n ∈ nestedNamesProps ps ∧ r = tpl n :=
  match ps with
  | [] => by
      intro r hr
      simp [propsSchema, collectRefsFs] at hr
  | (k, t) :: rest => by
      intro r hr
      rw [propsSchema, collectRefsFs] at hr
      rcases List.mem_append.mp hr with h1 | h1
      · obtain ⟨n, hn, he⟩ := refs_schemaOfType tpl t r h1
        exact ⟨n, by rw [nestedNamesProps]; exact List.mem_append.mpr (Or.inl hn), he⟩
      · obtain ⟨n, hn, he⟩ := refs_propsSchema tpl rest r h1
        exact ⟨n, by rw [nestedNamesProps]; exact List.mem_append.mpr (Or.inr hn), he⟩

end

theorem toRef_propsSchema_obj (tpl : String → String) (ps : List (String × PType)) :
    toRef (.obj (propsSchema tpl ps)) = Option.none := by
  apply toRef_none_of_no_str_values
  intro p hp s hs
  obtain ⟨fs, hfs⟩ := propsSchema_values_obj tpl ps p hp
  rw [hfs] at hs
  cases hs

theorem refs_defBody (tpl : String → String) (n : String) (ps : List (String × PType))
    (req : List String) :
    ∀ r ∈ collectRefs (defBody tpl n ps req), ∃ m, m ∈ nestedNamesProps ps ∧ r = tpl m := by
  intro r hr
  rw [defBody] at hr
  simp only [collectRefs, collectRefsFs, collectRefsArr] at hr
  rw [toRef_propsSchema_obj tpl ps, collectRefsArr_mapStr] at hr
  simp [toRef, jLookup] at hr
  exact refs_propsSchema tpl ps r hr

mutual

theorem refs_defsOfType (tpl : String → String) (t : PType) :
    ∀ p ∈ defsOfType tpl t, ∀ r ∈ collectRefs p.2, ∃ n, n ∈ nestedNamesT t ∧ r = tpl n :=
  match t with
  | .prim _ => by intro p hp; simp [defsOfType] at hp
  | .enum _ _ => by intro p hp; simp [defsOfType] at hp
  | .listOf t1 => by
      intro p hp r hr
      exact refs_defsOfType tpl t1 p hp r hr
  | .dictOf t1 => by
      intro p hp r hr
      exact refs_defsOfType tpl t1 p hp r hr
  | .nested n ps req => by
      intro p hp r hr
      rw [defsOfType] at hp
      rcases List.mem_cons.mp hp with h1 | h1
      · rw [h1] at hr
        obtain ⟨m1, hm, he⟩ := refs_defBody tpl n ps req r hr
        exact ⟨m1, by rw [nestedNamesT]; exact List.mem_cons_of_mem _ hm, he⟩
      · obtain ⟨m1, hm, he⟩ := refs_defsOfProps tpl ps p h1 r hr
        exact ⟨m1, by rw [nestedNamesT]; exact List.mem_cons_of_mem _ hm, he⟩

theorem refs_defsOfProps (tpl : String → String) (ps : List (String × PType)) :
    ∀ p ∈ defsOfProps tpl ps, ∀ r ∈ collectRefs p.2, ∃ n, n ∈ nestedNamesProps ps ∧ r = tpl n :=
  match ps with
  | [] => by intro p hp; simp [defsOfProps] at hp
  | (k, t) :: rest => by
      intro p hp r hr
      rw [defsOfProps] at hp
      rcases List.mem_append.mp hp with h1 | h1
      · obtain ⟨n, hn, he⟩ := refs_defsOfType tpl t p h1 r hr
        exact ⟨n, by rw [nestedNamesProps]; exact List.mem_append.mpr (Or.inl hn), he⟩
      · obtain ⟨n, hn, he⟩ := refs_defsOfProps tpl rest p h1 r hr
        exact ⟨n, by rw [nestedNamesProps]; exact List.mem_append.mpr (Or.inr hn), he⟩

end

theorem string_append_left_cancel (a b c : String) (h : a ++ b = a ++ c) : b = c := by
  apply String.ext
  have hd := congrArg String.data h
  rw [string_data_append, string_data_append] at hd
  exact List.append_inj_right hd rfl

theorem tpl_group (b s : String) :
    "#/definitions/" ++ b ++ "-" ++ s = "#/definitions/" ++ (b ++ "-" ++ s) := by
  rw [string_append_assoc "#/definitions/" b "-",
    string_append_assoc "#/definitions/" (b ++ "-") s]

theorem key_noslash (b s : String) (hb : '/' ∉ b.data) (hs : '/' ∉ s.data) :
    '/' ∉ (b ++ "-" ++ s).data := by
  rw [string_data_append, string_data_append]
  intro hmem
  rcases List.mem_append.mp hmem with h1 | h1
  · rcases List.mem_append.mp h1 with h2 | h2
    · exact hb h2
    · simp at h2
  · exact hs h1

theorem dedupStr_ne_nil (l : List String) (h : l ≠ []) : dedupStr l ≠ [] := by
  cases l with
  | nil => exact absurd rfl h
  | cons x xs =>
    rw [dedupStr]
    intro hc
    cases hc

theorem extract_keys_eq (m : PModel) (suffix : String) :
    (extract_unique_schema m suffix).definitions.map Prod.fst =
      (dedupStr (nestedNamesProps m.props)).map (fun b => b ++ "-" ++ suffix) := by
  show ((dedupKeys (defsOfProps _ m.props)).map
      (fun kv => (kv.1 ++ "-" ++ suffix, kv.2))).map Prod.fst = _
  rw [List.map_map, ← mapFst_defsOfProps (fun n => "#/definitions/" ++ n ++ "-" ++ suffix) m.props,
    ← mapFst_dedupKeys, List.map_map]
  rfl

/-! ### C3 — definitions naming and cross-reference integrity -/

/-- C3: for one schema-extraction call with token `suffix` (the modelled
`uuid4().hex`, slash-free as hex strings are, as are pydantic model
names): (i) every definitions key is a nested model's base name suffixed
with this call's token; (ii) keys are pairwise distinct — a nested type
used twice yields one entry; (iii) every `$ref` emitted, in the schema or
in any definitions body, names exactly one present key, through the
standard `#/definitions/` prefix, and `ref_name` recovers that key;
(iv) every reachable nested model's suffixed key is present; (v) two
calls whose tokens are distinct (equal-length) strings produce disjoint
key sets — entries of independent calls never alias. -/
theorem extract_unique_schema_definitions_consistent
    (m : PModel) (suffix : String)
    (hs : '/' ∉ suffix.data)
    (hn : ∀ base ∈ nestedNamesProps m.props, '/' ∉ base.data) :
    (∀ k ∈ (extract_unique_schema m suffix).definitions.map Prod.fst,
       ∃ base ∈ nestedNamesProps m.props, k = base ++ "-" ++ suffix) ∧
    ((extract_unique_schema m suffix).definitions.map Prod.fst).Nodup ∧
    (∀ r, (r ∈ collectRefs (extract_unique_schema m suffix).schema ∨
           ∃ p ∈ (extract_unique_schema m suffix).definitions, r ∈ collectRefs p.2) →
       ∃ k ∈ (extract_unique_schema m suffix).definitions.map Prod.fst,
         r = "#/definitions/" ++ k ∧ refName r = k) ∧
    (∀ base ∈ nestedNamesProps m.props,
       (base ++ "-" ++ suffix) ∈ (extract_unique_schema m suffix).definitions.map Prod.fst) ∧
    (∀ (m2 : PModel) (s2 : String), suffix.length = s2.length → suffix ≠ s2 →
       ∀ k ∈ (extract_unique_schema m suffix).definitions.map Prod.fst,
         k ∉ (extract_unique_schema m2 s2).definitions.map Prod.fst) := by
  have hkeys := extract_keys_eq m suffix
  have hmemkey : ∀ base ∈ nestedNamesProps m.props,
      (base ++ "-" ++ suffix) ∈ (extract_unique_schema m suffix).definitions.map Prod.fst := by
    intro base hb
    rw [hkeys]
    exact List.mem_map.mpr ⟨base, (mem_dedupStr _ _).mpr hb, rfl⟩
  refine ⟨?_, ?_, ?_, hmemkey, ?_⟩
  · intro k hk
    rw [hkeys] at hk
    obtain ⟨b, hb, he⟩ := List.mem_map.mp hk
    exact ⟨b, (mem_dedupStr _ _).mp hb, he.symm⟩
  · rw [hkeys]
    apply List.Nodup.map ?hi (nodup_dedupStr _)
    case hi =>
      intro a b hab
      have h1 := string_append_right_cancel _ _ _ hab
      exact string_append_right_cancel _ _ _ h1
  · intro r hr
    have hbase : ∃ base, base ∈ nestedNamesProps m.props ∧
        r = "#/definitions/" ++ base ++ "-" ++ suffix := by
      rcases hr with h1 | ⟨p, hp, h2⟩
      · exact refs_defBody _ m.name m.props m.required r h1
      · obtain ⟨q, hq, hpq⟩ := List.mem_map.mp hp
        have hq2 : q ∈ defsOfProps (fun n => "#/definitions/" ++ n ++ "-" ++ suffix) m.props :=
          dedupKeys_entry_sub _ _ hq
        have hp2 : p.2 = q.2 := by rw [← hpq]
        rw [hp2] at h2
        exact refs_defsOfProps _ m.props q hq2 r h2
    obtain ⟨base, hb, he⟩ := hbase
    refine ⟨base ++ "-" ++ suffix, hmemkey base hb, ?_, ?_⟩
    · rw [he, tpl_group]
    · rw [he, tpl_group, refName_defs_key _ (key_noslash _ _ (hn base hb) hs)]
  · intro m2 s2 hlen hne k hk1 hk2
    rw [hkeys] at hk1
    rw [extract_keys_eq m2 s2] at hk2
    obtain ⟨b1, _, he1⟩ := List.mem_map.mp hk1
    obtain ⟨b2, _, he2⟩ := List.mem_map.mp hk2
    exact suffix_key_ne b1 suffix b2 s2 hlen hne (he1.trans he2.symm)

/-- The concrete model used in the C3 and C4 witnesses: a model with one
nested child type used by two fields. -/
def mChild : PModel :=
  { name := "Parent"
    props := [("a", PType.nested "Child" [("x", PType.prim "string")] ["x"]),
              ("b", PType.nested "Child" [("x", PType.prim "string")] ["x"])]
    required := ["a"]
    doc := Option.none }

/-- C3, witness: on `mChild` with token `"c0ffee"`, the definitions hold
the single suffixed key `Child-c0ffee`, and the `$ref` emitted in the
schema resolves to it. -/
theorem extract_unique_schema_definitions_consistent_witness :
    ((extract_unique_schema mChild "c0ffee").definitions.map Prod.fst).Nodup ∧
    ("Child" ++ "-" ++ "c0ffee")
      ∈ (extract_unique_schema mChild "c0ffee").definitions.map Prod.fst := by
  have h := extract_unique_schema_definitions_consistent mChild "c0ffee"
    (by decide) (by intro base hb; fin_cases hb <;> decide)
  exact ⟨h.2.1, h.2.2.2.1 "Child" (by decide)⟩

/-! ### C4 — determinism of generation -/

/-- C4, counterexample.  The claim says two generation runs over the same
inputs produce identical serialized documents, with equal definitions
keys and equal `$ref` strings.  `extract_unique_schema` draws a fresh
`uuid.uuid4().hex` token at every call, so the two runs of the same
extraction differ: with the tokens the two runs draw (any two distinct
tokens), the definitions keys and the `$ref` strings both differ. -/
theorem extract_unique_schema_two_runs_differ :
    (extract_unique_schema mChild "0a").definitions.map Prod.fst ≠
      (extract_unique_schema mChild "0b").definitions.map Prod.fst ∧
    collectRefs (extract_unique_schema mChild "0a").schema ≠
      collectRefs (extract_unique_schema mChild "0b").schema := by
  exact ⟨by decide, by decide⟩

/-- C4, amended.  Given the per-run uniqueness token, generation is a
pure, deterministic function of its inputs: runs with equal tokens
produce identical extracted schemas.  Across runs the token is freshly
drawn, and whenever the model contributes at least one definitions
entry, runs with distinct (equal-length) tokens produce different
definitions keys — so serialized documents are identical only up to the
per-run tokens. -/
theorem extract_unique_schema_deterministic_up_to_token
    (m : PModel) (s1 s2 : String) :
    (s1 = s2 → extract_unique_schema m s1 = extract_unique_schema m s2) ∧
    (nestedNamesProps m.props ≠ [] →
     (extract_unique_schema m s1).definitions.map Prod.fst =
       (extract_unique_schema m s2).definitions.map Prod.fst → s1 = s2) := by
  constructor
  · intro h
    rw [h]
  · intro hne hkeys
    rw [extract_keys_eq, extract_keys_eq] at hkeys
    match hd : dedupStr (nestedNamesProps m.props) with
    | [] => exact absurd hd (dedupStr_ne_nil _ hne)
    | b :: rest =>
      rw [hd] at hkeys
      simp only [List.map_cons] at hkeys
      have hh := List.head_eq_of_cons_eq hkeys
      exact string_append_left_cancel (b ++ "-") s1 s2 hh

/-- C4, witness: the amended determinism applied to `mChild` — equal
tokens give equal results, and the keys of runs with tokens `"0a"` and
`"0b"` cannot coincide. -/
theorem extract_unique_schema_deterministic_up_to_token_witness :
    extract_unique_schema mChild "0a" = extract_unique_schema mChild "0a" ∧
    (extract_unique_schema mChild "0a").definitions.map Prod.fst ≠
      (extract_unique_schema mChild "0b").definitions.map Prod.fst := by
  constructor
  · exact (extract_unique_schema_deterministic_up_to_token mChild "0a" "0a").1 rfl
  · intro h
    have := (extract_unique_schema_deterministic_up_to_token mChild "0a" "0b").2
      (by decide) h
    exact absurd this (by decide)

/-! ### C9 — dereferencing: measures and auxiliary lemmas -/

/-- A JSON tree all of whose proper sub-values are reference-free (the
root itself may still parse as a `Reference`, which `dereference` never
inspects). -/
def refFreeChildren : JVal → Bool
  | .obj fs => refFreeFs fs
  | .arr xs => refFreeArr xs
  | _ => true

/-- Maximal depth of a definitions body. -/
def defsDepth : List (String × JVal) → Nat
  | [] => 0
  | (_, b) :: rest => max (jdepth b) (defsDepth rest)

/-- One plus the largest rank of any reference target named in `j`
(zero when `j` holds no references). -/
def refRank (rank : String → Nat) (j : JVal) : Nat :=
  (collectRefs j).foldr (fun r acc => max (rank (refName r) + 1) acc) 0

theorem jdepth_pos (j : JVal) : 1 ≤ jdepth j := by
  cases j <;> simp [jdepth]

theorem refFreeFs_iff (fs : List (String × JVal)) :
    refFreeFs fs = true ↔ ∀ p ∈ fs, refFree p.2 = true := by
  induction fs with
  | nil => simp [refFreeFs]
  | cons p rest ih =>
    rw [refFreeFs, Bool.and_eq_true, ih]
    constructor
    · rintro ⟨h1, h2⟩ q hq
      rcases List.mem_cons.mp hq with h3 | h3
      · rw [h3]; exact h1
      · exact h2 q h3
    · intro h
      exact ⟨h p (List.mem_cons_self _ _), fun q hq => h q (List.mem_cons_of_mem _ hq)⟩

theorem refFreeArr_iff (xs : List JVal) :
    refFreeArr xs = true ↔ ∀ v ∈ xs, refFree v = true := by
  induction xs with
  | nil => simp [refFreeArr]
  | cons v rest ih =>
    rw [refFreeArr, Bool.and_eq_true, ih]
    constructor
    · rintro ⟨h1, h2⟩ w hw
      rcases List.mem_cons.mp hw with h3 | h3
      · rw [h3]; exact h1
      · exact h2 w h3
    · intro h
      exact ⟨h v (List.mem_cons_self _ _), fun w hw => h w (List.mem_cons_of_mem _ hw)⟩

theorem collectRefs_child_obj (fs : List (String × JVal)) (p : String × JVal)
    (hp : p ∈ fs) (r : String) (hr : r ∈ collectRefs p.2) :
    r ∈ collectRefs (.obj fs) := by
  rw [collectRefs]
  apply List.mem_append.mpr
  right
  induction fs with
  | nil => simp at hp
  | cons q rest ih =>
    rw [collectRefsFs]
    rcases List.mem_cons.mp hp with h1 | h1
    · exact List.mem_append.mpr (Or.inl (h1 ▸ hr))
    · exact List.mem_append.mpr (Or.inr (ih h1))

theorem collectRefs_child_arr (xs : List JVal) (v : JVal)
    (hv : v ∈ xs) (r : String) (hr : r ∈ collectRefs v) :
    r ∈ collectRefs (.arr xs) := by
  rw [collectRefs]
  induction xs with
  | nil => simp at hv
  | cons w rest ih =>
    rw [collectRefsArr]
    rcases List.mem_cons.mp hv with h1 | h1
    · exact List.mem_append.mpr (Or.inl (h1 ▸ hr))
    · exact List.mem_append.mpr (Or.inr (ih h1))

theorem collectRefs_self (j : JVal) (r : String) (h : toRef j = some r) :
    r ∈ collectRefs j := by
  match j with
  | .obj fs =>
    rw [collectRefs, h]
    exact List.mem_append.mpr (Or.inl (List.mem_singleton.mpr rfl))
  | .null | .bool _ | .num _ | .str _ | .arr _ => simp [toRef] at h

theorem jdepth_child_obj (fs : List (String × JVal)) (p : String × JVal)
    (hp : p ∈ fs) : jdepth p.2 ≤ jdepthFs fs := by
  induction fs with
  | nil => simp at hp
  | cons q rest ih =>
    rw [jdepthFs]
    rcases List.mem_cons.mp hp with h1 | h1
    · rw [h1]
      exact Nat.le_max_left _ _
    · exact le_trans (ih h1) (Nat.le_max_right _ _)

theorem jdepth_child_arr (xs : List JVal) (v : JVal)
    (hv : v ∈ xs) : jdepth v ≤ jdepthArr xs := by
  induction xs with
  | nil => simp at hv
  | cons w rest ih =>
    rw [jdepthArr]
    rcases List.mem_cons.mp hv with h1 | h1
    · rw [h1]
      exact Nat.le_max_left _ _
    · exact le_trans (ih h1) (Nat.le_max_right _ _)

theorem defsDepth_bound (defs : List (String × JVal)) (p : String × JVal)
    (hp : p ∈ defs) : jdepth p.2 ≤ defsDepth defs := by
  induction defs with
  | nil => simp at hp
  | cons q rest ih =>
    obtain ⟨k, b⟩ := q
    rw [defsDepth]
    rcases List.mem_cons.mp hp with h1 | h1
    · rw [h1]
      exact Nat.le_max_left _ _
    · exact le_trans (ih h1) (Nat.le_max_right _ _)

theorem refRank_spec (rank : String → Nat) (j : JVal) (r : String)
    (hr : r ∈ collectRefs j) : rank (refName r) + 1 ≤ refRank rank j := by
  rw [refRank]
  revert hr
  generalize collectRefs j = l
  intro hr
  induction l with
  | nil => simp at hr
  | cons x rest ih =>
    rw [List.foldr_cons]
    rcases List.mem_cons.mp hr with h1 | h1
    · rw [h1]
      exact Nat.le_max_left _ _
    · exact le_trans (ih h1) (Nat.le_max_right _ _)

theorem refRank_le (rank : String → Nat) (j : JVal) (bound : Nat)
    (h : ∀ r ∈ collectRefs j, rank (refName r) + 1 ≤ bound) :
    refRank rank j ≤ bound := by
  rw [refRank]
  revert h
  generalize collectRefs j = l
  intro h
  induction l with
  | nil => simp
  | cons x rest ih =>
    rw [List.foldr_cons]
    apply max_le
    · exact h x (List.mem_cons_self _ _)
    · exact ih (fun r hr => h r (List.mem_cons_of_mem _ hr))

theorem jLookup_isSome_of_mem_keys (defs : List (String × JVal)) (k : String)
    (h : k ∈ defs.map Prod.fst) : ∃ b, jLookup defs k = some b := by
  induction defs with
  | nil => simp at h
  | cons p rest ih =>
    obtain ⟨k0, v0⟩ := p
    by_cases hk : k0 = k
    · exact ⟨v0, by rw [jLookup, if_pos hk]⟩
    · rw [jLookup, if_neg hk]
      apply ih
      rw [List.map_cons] at h
      rcases List.mem_cons.mp h with h1 | h1
      · exact absurd h1.symm hk
      · exact h1

theorem jLookup_map (fs : List (String × JVal)) (g : JVal → JVal) (k : String) :
    jLookup (fs.map (fun kv => (kv.1, g kv.2))) k = (jLookup fs k).map g := by
  induction fs with
  | nil => rfl
  | cons p rest ih =>
    obtain ⟨k0, v0⟩ := p
    by_cases hk : k0 = k
    · simp [jLookup, hk]
    · simp only [List.map_cons, jLookup, if_neg hk]
      exact ih

theorem deref_obj_shape (defs : List (String × JVal)) (n : Nat) (fs : List (String × JVal)) :
    ∃ fs2, deref defs n (.obj fs) = .obj fs2 := by
  cases n <;> exact ⟨_, rfl⟩

theorem deref_arr_shape (defs : List (String × JVal)) (n : Nat) (xs : List JVal) :
    ∃ xs2, deref defs n (.arr xs) = .arr xs2 := by
  cases n <;> exact ⟨_, rfl⟩

theorem derefStep_str (defs : List (String × JVal)) (g : JVal → JVal) (s : String) :
    derefStep defs g (.str s) = .str s := rfl

/-- If all definitions bodies are objects, `derefStep` never turns a
non-string value into a string. -/
theorem derefStep_not_str (defs : List (String × JVal)) (n : Nat) (v : JVal)
    (hdefs : ∀ p ∈ defs, ∃ fs, p.2 = JVal.obj fs)
    (hv : ∀ s, v ≠ JVal.str s) :
    ∀ s, derefStep defs (fun x => deref defs n x) v ≠ JVal.str s := by
  intro s
  cases htr : toRef v with
  | some r =>
    simp only [derefStep, htr]
    cases hlook : jLookup defs (refName r) with
    | none =>
      simp only [hlook, Option.getD_none]
      obtain ⟨fs2, h2⟩ := deref_obj_shape defs n []
      rw [h2]
      intro hc
      cases hc
    | some b =>
      obtain ⟨bfs, hbfs⟩ := hdefs _ (jLookup_mem _ _ _ hlook)
      simp only [hlook, Option.getD_some]
      rw [show b = JVal.obj bfs from hbfs]
      obtain ⟨fs2, h2⟩ := deref_obj_shape defs n bfs
      rw [h2]
      intro hc
      cases hc
  | none =>
    cases v with
    | obj fs1 =>
      simp only [derefStep, htr]
      obtain ⟨fs2, h2⟩ := deref_obj_shape defs n fs1
      rw [h2]
      intro hc
      cases hc
    | arr xs1 =>
      simp only [derefStep, htr]
      obtain ⟨xs2, h2⟩ := deref_arr_shape defs n xs1
      rw [h2]
      intro hc
      cases hc
    | null => simp [derefStep, htr]
    | bool b1 => simp [derefStep, htr]
    | num m1 => simp [derefStep, htr]
    | str s1 =>
      rw [derefStep_str]
      exact hv s

/-- Mapping a value transformer that fixes strings and preserves
non-string-ness over an object's fields cannot create a `Reference`. -/
theorem toRef_obj_map_none (fs : List (String × JVal)) (g : JVal → JVal)
    (hg_nstr : ∀ v, (∀ s, v ≠ JVal.str s) → ∀ s, g v ≠ JVal.str s)
    (h : toRef (.obj fs) = Option.none) :
    toRef (.obj (fs.map (fun kv => (kv.1, g kv.2)))) = Option.none := by
  rw [toRef] at h ⊢
  rw [jLookup_map, jLookup_map]
  match h1 : jLookup fs "$ref" with
  | some v =>
    rw [h1] at h
    show strRef (g v) = Option.none
    have h' : strRef v = Option.none := h
    exact strRef_eq_none _ (hg_nstr v ((strRef_none_iff v).mp h'))
  | Option.none =>
    rw [h1] at h
    match h2 : jLookup fs "ref_" with
    | some v =>
      rw [h2] at h
      show strRef (g v) = Option.none
      have h' : strRef v = Option.none := h
      exact strRef_eq_none _ (hg_nstr v ((strRef_none_iff v).mp h'))
    | Option.none => rfl

/-- The dereferencing induction: over an acyclic (ranked) definitions map
with object bodies, and given enough fuel, `dereference` leaves no
reference in any sub-value, and none at all when the root is not itself a
reference object. -/
theorem deref_refFree_aux (defs : List (String × JVal)) (rank : String → Nat)
    (hdefs : ∀ p ∈ defs, (∃ fs, p.2 = JVal.obj fs) ∧ toRef p.2 = Option.none ∧
       ∀ r ∈ collectRefs p.2, refName r ∈ defs.map Prod.fst ∧ rank (refName r) < rank p.1) :
    ∀ fuel : Nat, ∀ j : JVal,
      (∀ r ∈ collectRefs j, refName r ∈ defs.map Prod.fst) →
      jdepth j + refRank rank j * (1 + defsDepth defs) ≤ fuel →
      refFreeChildren (deref defs fuel j) = true ∧
      (toRef j = Option.none → refFree (deref defs fuel j) = true) := by
  intro fuel
  induction fuel with
  | zero =>
    intro j hj hf
    have := jdepth_pos j
    omega
  | succ n ih =>
    intro j hj hf
    have hval : ∀ v : JVal,
        (∀ r ∈ collectRefs v, refName r ∈ defs.map Prod.fst) →
        jdepth v + refRank rank v * (1 + defsDepth defs) ≤ n →
        refFree (derefStep defs (fun x => deref defs n x) v) = true := by
      intro v hrefs hfv
      cases htr : toRef v with
      | some r =>
        have hrv : r ∈ collectRefs v := collectRefs_self v r htr
        have hname := hrefs r hrv
        obtain ⟨b, hlook⟩ := jLookup_isSome_of_mem_keys defs _ hname
        have hbmem := jLookup_mem _ _ _ hlook
        obtain ⟨⟨bfs, hbfs⟩, hbRef, hbrefs⟩ := hdefs _ hbmem
        have hstep : derefStep defs (fun x => deref defs n x) v = deref defs n b := by
          simp only [derefStep, htr, hlook, Option.getD_some]
        rw [hstep]
        apply (ih b (fun r2 hr2 => (hbrefs r2 hr2).1) ?hfb).2 hbRef
        case hfb =>
          have hD1 : jdepth b ≤ defsDepth defs := defsDepth_bound defs _ hbmem
          have hRb : refRank rank b ≤ rank (refName r) :=
            refRank_le rank b _ (fun r2 hr2 => (hbrefs r2 hr2).2)
          have hA : rank (refName r) + 1 ≤ refRank rank v := refRank_spec rank v r hrv
          have h2 : (rank (refName r) + 1) * (1 + defsDepth defs) ≤
              refRank rank v * (1 + defsDepth defs) := Nat.mul_le_mul_right _ hA
          have h3 : refRank rank b * (1 + defsDepth defs) ≤
              rank (refName r) * (1 + defsDepth defs) := Nat.mul_le_mul_right _ hRb
          have h4 : (rank (refName r) + 1) * (1 + defsDepth defs)
              = rank (refName r) * (1 + defsDepth defs) + (1 + defsDepth defs) := by ring
          have h5 := jdepth_pos v
          linarith
      | none =>
        cases v with
        | obj fs1 =>
          have hstep : derefStep defs (fun x => deref defs n x) (JVal.obj fs1) =
              deref defs n (JVal.obj fs1) := by
            simp only [derefStep, htr]
          rw [hstep]
          exact (ih (JVal.obj fs1) hrefs hfv).2 htr
        | arr xs1 =>
          have hstep : derefStep defs (fun x => deref defs n x) (JVal.arr xs1) =
              deref defs n (JVal.arr xs1) := by
            simp only [derefStep, htr]
          rw [hstep]
          exact (ih (JVal.arr xs1) hrefs hfv).2 htr
        | null => rfl
        | bool b1 => rfl
        | num m1 => rfl
        | str s1 => rfl
    match j with
    | .null => exact ⟨rfl, fun _ => rfl⟩
    | .bool _ => exact ⟨rfl, fun _ => rfl⟩
    | .num _ => exact ⟨rfl, fun _ => rfl⟩
    | .str _ => exact ⟨rfl, fun _ => rfl⟩
    | .arr xs =>
      have hA : refFreeArr (xs.map (fun v => derefStep defs (fun x => deref defs n x) v)) = true := by
        apply (refFreeArr_iff _).mpr
        intro w hw
        obtain ⟨v, hv, hvw⟩ := List.mem_map.mp hw
        rw [← hvw]
        apply hval v (fun r hr => hj r (collectRefs_child_arr xs v hv r hr))
        have h1 : jdepth v ≤ jdepthArr xs := jdepth_child_arr xs v hv
        have h2 : refRank rank v ≤ refRank rank (.arr xs) :=
          refRank_le _ _ _
            (fun r2 hr2 => refRank_spec _ _ r2 (collectRefs_child_arr xs v hv r2 hr2))
        have h3 : refRank rank v * (1 + defsDepth defs) ≤
            refRank rank (JVal.arr xs) * (1 + defsDepth defs) := Nat.mul_le_mul_right _ h2
        have h4 : jdepth (JVal.arr xs) = 1 + jdepthArr xs := rfl
        have h5 : jdepth (JVal.arr xs) + refRank rank (JVal.arr xs) * (1 + defsDepth defs) ≤ n + 1 := hf
        linarith
      exact ⟨hA, fun _ => hA⟩
    | .obj fs =>
      have hFs : refFreeFs (fs.map (fun kv =>
          (kv.1, derefStep defs (fun x => deref defs n x) kv.2))) = true := by
        apply (refFreeFs_iff _).mpr
        intro p hp2
        obtain ⟨q, hq, hpq⟩ := List.mem_map.mp hp2
        rw [← hpq]
        apply hval q.2 (fun r hr => hj r (collectRefs_child_obj fs q hq r hr))
        have h1 : jdepth q.2 ≤ jdepthFs fs := jdepth_child_obj fs q hq
        have h2 : refRank rank q.2 ≤ refRank rank (.obj fs) :=
          refRank_le _ _ _
            (fun r2 hr2 => refRank_spec _ _ r2 (collectRefs_child_obj fs q hq r2 hr2))
        have h3 : refRank rank q.2 * (1 + defsDepth defs) ≤
            refRank rank (JVal.obj fs) * (1 + defsDepth defs) := Nat.mul_le_mul_right _ h2
        have h4 : jdepth (JVal.obj fs) = 1 + jdepthFs fs := rfl
        have h5 : jdepth (JVal.obj fs) + refRank rank (JVal.obj fs) * (1 + defsDepth defs) ≤ n + 1 := hf
        linarith
      refine ⟨hFs, ?_⟩
      intro htj
      show ((toRef (JVal.obj (fs.map (fun kv =>
          (kv.1, derefStep defs (fun x => deref defs n x) kv.2))))).isNone
        && refFreeFs (fs.map (fun kv =>
          (kv.1, derefStep defs (fun x => deref defs n x) kv.2)))) = true
      rw [toRef_obj_map_none fs _ ?hg htj, hFs]
      · rfl
      case hg =>
        exact fun v hv s => derefStep_not_str defs n v (fun p hp => (hdefs p hp).1) hv s

/-- C9, counterexample.  The claim says dereferencing against a
Definitions map with a missing `$ref` target raises a fatal
`AmbiguousReferenceError`.  No such error exists: `definitions.get(name,
{})` silently substitutes the empty dict, as the first conjunct shows on a
schema whose only reference targets the absent `B`.  The second conjunct
shows a further divergence from the claim's positive half: a *root-level*
reference object survives dereferencing untouched even when its target is
present, because the walk only rewrites values sitting inside a dict or
list. -/
theorem dereference_missing_target_silent :
    deref [] 9 (JVal.obj [("x", JVal.obj [("$ref", JVal.str "#/definitions/B")])]) =
      JVal.obj [("x", JVal.obj [])] ∧
    deref [("A", JVal.obj [])] 9 (JVal.obj [("$ref", JVal.str "#/definitions/A")]) =
      JVal.obj [("$ref", JVal.str "#/definitions/A")] :=
  ⟨rfl, rfl⟩

/-- C9, amended.  A missing `$ref` target is silently dereferenced to the
empty dict (no `AmbiguousReferenceError` — the name does not occur in the
code base).  Positively: against a definitions map that is acyclic (some
rank function decreases along references), whose bodies are
non-reference objects, and with no dangling reference in map or schema,
`dereference` with enough recursion depth returns a tree none of whose
sub-values is a reference — fully reference-free whenever the root is not
itself a reference object, the one spot the walk never rewrites. -/
theorem dereference_inlines_subrefs (defs : List (String × JVal))
    (rank : String → Nat) (j : JVal) (fuel : Nat)
    (hdefs : ∀ p ∈ defs, (∃ fs, p.2 = JVal.obj fs) ∧ toRef p.2 = Option.none ∧
       ∀ r ∈ collectRefs p.2, refName r ∈ defs.map Prod.fst ∧ rank (refName r) < rank p.1)
    (hj : ∀ r ∈ collectRefs j, refName r ∈ defs.map Prod.fst)
    (hf : jdepth j + refRank rank j * (1 + defsDepth defs) ≤ fuel) :
    refFreeChildren (deref defs fuel j) = true ∧
    (toRef j = Option.none → refFree (deref defs fuel j) = true) :=
  deref_refFree_aux defs rank hdefs fuel j hj hf

/-- The definitions map of the C9 witness: `A` references `B`. -/
def defsW : List (String × JVal) :=
  [("A", JVal.obj [("b", JVal.obj [("$ref", JVal.str "#/definitions/B")])]),
   ("B", JVal.obj [("t", JVal.str "string")])]

/-- The schema of the C9 witness: one field referencing `A`. -/
def schemaW : JVal :=
  JVal.obj [("x", JVal.obj [("$ref", JVal.str "#/definitions/A")])]

/-- C9, witness: dereferencing the two-level reference chain of `schemaW`
against `defsW` yields a fully reference-free tree. -/
theorem dereference_inlines_subrefs_witness :
    refFree (deref defsW 11 schemaW) = true :=
  (dereference_inlines_subrefs defsW (fun nm => if nm = "A" then 1 else 0) schemaW 11
    (by intro p hp
        fin_cases hp
        · exact ⟨⟨_, rfl⟩, rfl, by decide⟩
        · exact ⟨⟨_, rfl⟩, rfl, by decide⟩)
    (by decide) (by decide)).2 rfl

/-! ### The openapi Operation / Path / Document pipeline -/

/-- `path.split(".")[0]`: the top-level module segment. -/
def firstSeg (s : String) : String :=
  String.mk (s.data.takeWhile (· ≠ '.'))

/-- Fuel under which `deref` completes on every acyclic definitions map
(rank functions on an acyclic map can be chosen below `defs.length`). -/
def derefFuel (sch : JVal) (defs : List (String × JVal)) : Nat :=
  jdepth sch + (defs.length + 1) * (1 + defsDepth defs)

/-- `MediaType._from` / `Parameter.to_parameters` schema extraction
(openapi.py): `model.schema()` with the default `#/definitions/{model}`
template; when definitions were produced they are popped and the schema
is dereferenced against them. -/
def mediaSchema (mm : PModel) : JVal :=
  let sd := pschema mm (fun n => "#/definitions/" ++ n)
  if sd.2.isEmpty then sd.1
  else deref sd.2 (derefFuel sd.1 sd.2) sd.1

/-- An openapi `Response` as `_extract_responses` builds it:
`Response._from(model)` (docstring description plus one
`application/json` media type), `Response.parse_obj(dict)`, or the
error path the source raises on for any other value. -/
inductive Resp where
  | fromModel (desc : Option String) (schema : JVal)
  | parsed (v : List (String × AttrValue))
  | invalid

/-- `Operation._extract_responses` (openapi.py): the verb-level
`{m}_response_schema` attribute, falling back to the API-level attribute
only when the former compares equal to `None`; a model or serializer
becomes a single `"200"` response, a dict becomes one response per
status-code key, and any other value leaves `responses` empty. -/
def extract_responses (v : View) (m : String) : List (String × Resp) :=
  let rs0 := v.getattrD (m ++ "_response_schema") .none
  let rs := match rs0 with
    | AttrValue.none => v.getattrD "response_schema" .none
    | x => x
  match rs with
  | .model mm => [("200", Resp.fromModel mm.doc (mediaSchema mm))]
  | .serializer s => [("200", Resp.fromModel (fromSerializer s).doc (mediaSchema (fromSerializer s)))]
  | .dict d =>
      d.map (fun kv => (kv.1,
        match kv.2 with
        | .serializer s => Resp.fromModel (fromSerializer s).doc (mediaSchema (fromSerializer s))
        | .dict dd => Resp.parsed dd
        | .model mm => Resp.fromModel mm.doc (mediaSchema mm)
        | _ => Resp.invalid))
  | _ => []

/-- `Operation._extract_tags` (openapi.py): truthiness chain with the
top-level module segment as final fallback. -/
def extract_tags (v : View) (m : String) : AttrValue :=
  let t1 := v.getattrD (m ++ "_tags") .none
  let t2 := if truthy t1 then t1 else v.getattrD "tags" .none
  if truthy t2 then t2 else .list [.str (firstSeg v.module)]

/-- `Operation._extract_operation_id` (openapi.py): truthiness chain,
no further fallback. -/
def extract_operation_id (v : View) (m : String) : AttrValue :=
  let x1 := v.getattrD (m ++ "_operation_id") .none
  if truthy x1 then x1 else v.getattrD "operation_id" .none

/-- `Operation._extract_description` (openapi.py): truthiness chain with
the view docstring as final fallback. -/
def extract_description (v : View) (m : String) : AttrValue :=
  let d1 := v.getattrD (m ++ "_description") .none
  let d2 := if truthy d1 then d1 else v.getattrD "description" .none
  if truthy d2 then d2
  else match v.doc with
    | some d => .str d
    | Option.none => .none

/-- An openapi `RequestBody` as `_extract_request_body` builds it.  The
two error constructors mark the source's raise sites: a truthy body
attribute that is neither model nor dict raises `TypeError`, and a dict
body with keys beyond `description`/`required` crashes in the
`for k, v in request_body_attr` loop (iterating a dict yields keys, which
do not unpack). -/
inductive RequestBodyE where
  | fromModel (desc : Option String) (schema : JVal)
  | fromDict (desc : AttrValue) (required : AttrValue)
  | errDict
  | errType

/-- `Operation._extract_request_body` (openapi.py): only the verb-level
`{m}_body_params` attribute is consulted; a falsy value means no request
body; a model becomes one `application/json` media entry; a dict has
`description`/`required` popped first. -/
def extract_request_body (v : View) (m : String) : Option RequestBodyE :=
  let b := v.getattrD (m ++ "_body_params") .none
  if truthy b = false then Option.none
  else match b with
    | .model mm => some (.fromModel mm.doc (mediaSchema mm))
    | .dict d =>
        let desc := (getattrOpt d "description").getD (.str "")
        let req := (getattrOpt d "required").getD (.bool false)
        let rest := d.filter (fun kv => kv.1 ≠ "description" ∧ kv.1 ≠ "required")
        if rest.isEmpty then some (.fromDict desc req) else some .errDict
    | _ => some .errType

/-- A `Parameter` as `Parameter.to_parameters` builds it (one per
property of the dereferenced schema), or the `TypeError` site reached
when the resolved params attribute is not a pydantic model. -/
inductive Param where
  | mk (name : String) (in_ : String) (description : Option JVal)
      (required : Option JVal) (schema_ : Option JVal)
  | invalid (loc : String)

/-- `props.get(key)` on a property sub-schema. -/
def propGet (pv : JVal) (k : String) : Option JVal :=
  match pv with
  | .obj fs => jLookup fs k
  | _ => Option.none

/-- The `properties` dict of a model's dereferenced schema. -/
def paramProps (mm : PModel) : List (String × JVal) :=
  match mediaSchema mm with
  | .obj fs =>
      match jLookup fs "properties" with
      | some (.obj pfs) => pfs
      | _ => []
  | _ => []

/-- `Parameter.to_parameters` (openapi.py): body-location models are
handled by the request body (empty parameter list); other locations emit
one `Parameter` per property; a non-model value raises `TypeError`. -/
def to_parameters (schema : AttrValue) (loc : String) : List Param :=
  match schema with
  | .model mm =>
      if loc = "body" then []
      else (paramProps mm).map (fun kv =>
        Param.mk kv.1 loc (propGet kv.2 "description") (propGet kv.2 "required")
          (propGet kv.2 "schema"))
  | _ => [Param.invalid loc]

/-- Serializer-to-model conversion applied before `to_parameters`. -/
def convSer : AttrValue → AttrValue
  | .serializer s => .model (fromSerializer s)
  | x => x

/-- One location of `Operation._extract_parameters` (openapi.py):
verb-level attribute if *present*, else API-level attribute if present,
else nothing. -/
def paramsFor (v : View) (m : String) (attr loc : String) : List Param :=
  match getattrOpt v.attrs (m ++ "_" ++ attr) with
  | some schema => to_parameters (convSer schema) loc
  | Option.none =>
      match getattrOpt v.attrs attr with
      | some schema => to_parameters (convSer schema) loc
      | Option.none => []

/-- `Operation._extract_parameters` (openapi.py), over the five `_params`
attributes in catalogue order. -/
def extract_parameters (v : View) (m : String) : List Param :=
  paramsFor v m "path_params" "path" ++ paramsFor v m "query_params" "query" ++
  paramsFor v m "header_params" "header" ++ paramsFor v m "cookie_params" "cookie" ++
  paramsFor v m "body_params" "body"

/-- One openapi `Operation`, with the extracted attribute values kept
raw (the source's type assertions are not modelled; they never change a
value). -/
structure Operation where
  tags : AttrValue
  operationId : AttrValue
  summary : AttrValue
  description : AttrValue
  requestBody : Option RequestBodyE
  parameters : List Param
  responses : List (String × Resp)

/-- `Operation._from` (openapi.py): the verb-level exclusion attribute is
read first; when truthy the build returns `None` immediately and no other
attribute is extracted. -/
def Operation_from (v : View) (m : String) : Option Operation :=
  let exclude := v.getattrD (m ++ "_djagger_exclude") (.bool false)
  if truthy exclude then Option.none
  else some
    { tags := extract_tags v m
      operationId := extract_operation_id v m
      summary := extract_summary v m
      description := extract_description v m
      requestBody := extract_request_body v m
      parameters := extract_parameters v m
      responses := extract_responses v m }

/-- An openapi `Path` object: one optional `Operation` per verb plus the
summary/description pulled from the view's API-level attributes. -/
structure PathObj where
  summary : AttrValue
  description : AttrValue
  get : Option Operation := Option.none
  put : Option Operation := Option.none
  post : Option Operation := Option.none
  delete : Option Operation := Option.none
  options : Option Operation := Option.none
  head : Option Operation := Option.none
  patch : Option Operation := Option.none
  trace : Option Operation := Option.none

/-- `HttpMethod.values()` in member order (enums.py; `trace` is not an
`HttpMethod`, so `Path.trace` can never be populated). -/
def httpMethodValues : List String :=
  ["get", "post", "patch", "delete", "put", "options", "head"]

/-- `setattr(path, http_method, operation)`. -/
def setVerb (p : PathObj) (m : String) (op : Operation) : PathObj :=
  if m = "get" then { p with get := some op }
  else if m = "post" then { p with post := some op }
  else if m = "patch" then { p with patch := some op }
  else if m = "delete" then { p with delete := some op }
  else if m = "put" then { p with put := some op }
  else if m = "options" then { p with options := some op }
  else if m = "head" then { p with head := some op }
  else p

/-- The class-based-view loop body of `Path.create` (openapi.py): for a
verb with a callable method, build the `Operation` and set it unless the
exclusion made it `None`. -/
def classStep (v : View) (p : PathObj) (m : String) : PathObj :=
  if m ∈ v.methods then
    match Operation_from v m with
    | some op => setVerb p m op
    | Option.none => p
  else p

/-- The function-based-view loop body of `Path.create` (openapi.py):
additionally skips operations with empty responses. -/
def fbvStep (v : View) (p : PathObj) (m : String) : PathObj :=
  match Operation_from v m with
  | some op => if op.responses.isEmpty then p else setVerb p m op
  | Option.none => p

/-- `Path.create` (openapi.py).  Class views probe the seven verb
methods; function views handle the DRF ViewSet `actions` keys (invalid
keys are skipped by the `except ValueError` there) and then the
decorator-supplied `djagger_http_methods` list (which the `@schema`
decorator has already validated to hold only http method names, so the
uncaught `ValueError` of that loop cannot trigger; the strings are
modelled here already lower-cased and valid). -/
def pathInit (v : View) : PathObj :=
  { summary := v.getattrD "summary" (.str "")
    description := v.getattrD "description" (.str "") }

/-- The guarded ViewSet-actions loop body (`HttpMethod(k)` wrapped in
`try/except ValueError: continue`). -/
def actionStep (v : View) (p : PathObj) (k : String) : PathObj :=
  if k ∈ httpMethodValues then fbvStep v p k else p

def Path_create (v : View) : PathObj :=
  if v.isClass then
    httpMethodValues.foldl (classStep v) (pathInit v)
  else
    let p1 := match v.actions with
      | some keys => keys.foldl (actionStep v) (pathInit v)
      | Option.none => pathInit v
    match v.djaggerHttpMethods with
    | Option.none => p1
    | some ms => ms.foldl (fbvStep v) p1

/-- `view.djagger_exclude` handler-level exclusion check in
`Document.generate` (openapi.py): present *and* truthy. -/
def viewExcluded (v : View) : Bool :=
  match getattrOpt v.attrs "djagger_exclude" with
  | some x => truthy x
  | Option.none => false

/-- The five-verb keep test of `Document.generate` (openapi.py and
swagger.py alike): `path.get or path.post or path.put or path.patch or
path.delete`. -/
def keepPath (p : PathObj) : Bool :=
  p.get.isSome || p.post.isSome || p.put.isSome || p.patch.isSome || p.delete.isSome

/-- Python dict assignment `d[k] = v`: an existing key keeps its
position, a new key is appended. -/
def dictSet (d : List (String × PathObj)) (k : String) (val : PathObj) :
    List (String × PathObj) :=
  match d with
  | [] => [(k, val)]
  | (k0, v0) :: rest => if k0 = k then (k, val) :: rest else (k0, v0) :: dictSet rest k val

/-- The paths loop of `Document.generate` (openapi.py): skip
handler-level-excluded views, build the `Path`, and store it under
`"/" + route` only when one of get/post/put/patch/delete is present. -/
def genStep (paths : List (String × PathObj)) (rv : String × View) :
    List (String × PathObj) :=
  if viewExcluded rv.2 then paths
  else if keepPath (Path_create rv.2) then
    dictSet paths ("/" ++ rv.1) (Path_create rv.2)
  else paths

def genPaths (routes : List (String × View)) : List (String × PathObj) :=
  routes.foldl genStep []

/-! ### C2 — method-level exclusion short-circuit -/

/-- A view with one extra attribute prepended (`setattr`). -/
def addAttr (v : View) (k : String) (x : AttrValue) : View :=
  { v with attrs := (k, x) :: v.attrs }

theorem getattrD_addAttr_ne (v : View) (k : String) (x : AttrValue) (key : String)
    (d : AttrValue) (h : k ≠ key) :
    (addAttr v k x).getattrD key d = v.getattrD key d := by
  simp [addAttr, View.getattrD, getattrOpt, h]

theorem getattrOpt_addAttr_ne (v : View) (k : String) (x : AttrValue) (key : String)
    (h : k ≠ key) :
    getattrOpt (addAttr v k x).attrs key = getattrOpt v.attrs key := by
  simp [addAttr, getattrOpt, h]

/-- Building the GET operation never reads the POST exclusion
attribute. -/
theorem Operation_from_get_insensitive (v : View) (x : AttrValue) :
    Operation_from (addAttr v "post_djagger_exclude" x) "get" = Operation_from v "get" := by
  have hne : ∀ key : String, "post_djagger_exclude" ≠ key →
      (addAttr v "post_djagger_exclude" x).getattrD key = v.getattrD key := by
    intro key h
    funext d
    exact getattrD_addAttr_ne v _ x key d h
  rw [Operation_from, Operation_from]
  rw [extract_tags, extract_tags, extract_operation_id, extract_operation_id,
    extract_summary, extract_summary, extract_description, extract_description,
    extract_request_body, extract_request_body,
    extract_parameters, extract_parameters, extract_responses, extract_responses]
  rw [paramsFor, paramsFor, paramsFor, paramsFor, paramsFor, paramsFor,
    paramsFor, paramsFor, paramsFor, paramsFor]
  rw [hne ("get" ++ "_djagger_exclude") (by decide),
    hne ("get" ++ "_tags") (by decide), hne "tags" (by decide),
    hne ("get" ++ "_operation_id") (by decide), hne "operation_id" (by decide),
    hne ("get" ++ "_summary") (by decide), hne "summary" (by decide),
    hne ("get" ++ "_description") (by decide), hne "description" (by decide),
    hne ("get" ++ "_body_params") (by decide),
    hne ("get" ++ "_response_schema") (by decide), hne "response_schema" (by decide)]
  rw [getattrOpt_addAttr_ne v _ x ("get" ++ "_" ++ "path_params") (by decide),
    getattrOpt_addAttr_ne v _ x "path_params" (by decide),
    getattrOpt_addAttr_ne v _ x ("get" ++ "_" ++ "query_params") (by decide),
    getattrOpt_addAttr_ne v _ x "query_params" (by decide),
    getattrOpt_addAttr_ne v _ x ("get" ++ "_" ++ "header_params") (by decide),
    getattrOpt_addAttr_ne v _ x "header_params" (by decide),
    getattrOpt_addAttr_ne v _ x ("get" ++ "_" ++ "cookie_params") (by decide),
    getattrOpt_addAttr_ne v _ x "cookie_params" (by decide),
    getattrOpt_addAttr_ne v _ x ("get" ++ "_" ++ "body_params") (by decide),
    getattrOpt_addAttr_ne v _ x "body_params" (by decide)]
  rfl

theorem setVerb_post_ne (p : PathObj) (m : String) (op : Operation) (h : m ≠ "post") :
    (setVerb p m op).post = p.post := by
  rw [setVerb]
  split_ifs with h1 h2 h3 h4 h5 h6 h7 <;> first | rfl | exact absurd h2 h

theorem setVerb_get_ne (p : PathObj) (m : String) (op : Operation) (h : m ≠ "get") :
    (setVerb p m op).get = p.get := by
  rw [setVerb]
  split_ifs with h1 h2 h3 h4 h5 h6 h7 <;> first | rfl | exact absurd h1 h

theorem classStep_post_ne (v : View) (p : PathObj) (m : String) (h : m ≠ "post") :
    (classStep v p m).post = p.post := by
  rw [classStep]
  split_ifs with h1
  · cases hop : Operation_from v m with
    | none => rfl
    | some op => exact setVerb_post_ne p m op h
  · rfl

theorem classStep_get_eq (v' v : View) (p q : PathObj) (m : String)
    (hins : Operation_from v' "get" = Operation_from v "get")
    (hmeth : v'.methods = v.methods) (hpq : p.get = q.get) :
    (classStep v' p m).get = (classStep v q m).get := by
  by_cases hm : m = "get"
  · subst hm
    rw [classStep, classStep, hmeth, hins]
    split_ifs with h1
    · cases hop : Operation_from v "get" with
      | none => exact hpq
      | some op => rfl
    · exact hpq
  · have h1 : (classStep v' p m).get = p.get := by
      rw [classStep]
      split_ifs
      · cases hop : Operation_from v' m with
        | none => rfl
        | some op => exact setVerb_get_ne p m op hm
      · rfl
    have h2 : (classStep v q m).get = q.get := by
      rw [classStep]
      split_ifs
      · cases hop : Operation_from v m with
        | none => rfl
        | some op => exact setVerb_get_ne q m op hm
      · rfl
    rw [h1, h2, hpq]

theorem fbvStep_get_eq (v' v : View) (p q : PathObj) (m : String)
    (hins : Operation_from v' "get" = Operation_from v "get") (hpq : p.get = q.get) :
    (fbvStep v' p m).get = (fbvStep v q m).get := by
  by_cases hm : m = "get"
  · subst hm
    rw [fbvStep, fbvStep, hins]
    cases hop : Operation_from v "get" with
    | none => exact hpq
    | some op =>
      show (if op.responses.isEmpty = true then p else setVerb p "get" op).get =
        (if op.responses.isEmpty = true then q else setVerb q "get" op).get
      by_cases hr : op.responses.isEmpty
      · rw [if_pos hr, if_pos hr]
        exact hpq
      · rw [if_neg hr, if_neg hr]
        rfl
  · have h1 : (fbvStep v' p m).get = p.get := by
      rw [fbvStep]
      cases hop : Operation_from v' m with
      | none => rfl
      | some op =>
        show (if op.responses.isEmpty = true then p else setVerb p m op).get = p.get
        by_cases hr : op.responses.isEmpty
        · rw [if_pos hr]
        · rw [if_neg hr]
          exact setVerb_get_ne p m op hm
    have h2 : (fbvStep v q m).get = q.get := by
      rw [fbvStep]
      cases hop : Operation_from v m with
      | none => rfl
      | some op =>
        show (if op.responses.isEmpty = true then q else setVerb q m op).get = q.get
        by_cases hr : op.responses.isEmpty
        · rw [if_pos hr]
        · rw [if_neg hr]
          exact setVerb_get_ne q m op hm
    rw [h1, h2, hpq]

theorem foldl_classStep_get_eq (v' v : View)
    (hins : Operation_from v' "get" = Operation_from v "get")
    (hmeth : v'.methods = v.methods) :
    ∀ (l : List String) (p q : PathObj), p.get = q.get →
      (l.foldl (classStep v') p).get = (l.foldl (classStep v) q).get := by
  intro l
  induction l with
  | nil => intro p q hpq; exact hpq
  | cons m rest ih =>
    intro p q hpq
    rw [List.foldl_cons, List.foldl_cons]
    exact ih _ _ (classStep_get_eq v' v p q m hins hmeth hpq)

theorem foldl_fbvStep_get_eq (v' v : View)
    (hins : Operation_from v' "get" = Operation_from v "get") :
    ∀ (l : List String) (p q : PathObj), p.get = q.get →
      (l.foldl (fbvStep v') p).get = (l.foldl (fbvStep v) q).get := by
  intro l
  induction l with
  | nil => intro p q hpq; exact hpq
  | cons m rest ih =>
    intro p q hpq
    rw [List.foldl_cons, List.foldl_cons]
    exact ih _ _ (fbvStep_get_eq v' v p q m hins hpq)

theorem foldl_actionStep_get_eq (v' v : View)
    (hins : Operation_from v' "get" = Operation_from v "get") :
    ∀ (l : List String) (p q : PathObj), p.get = q.get →
      (l.foldl (actionStep v') p).get = (l.foldl (actionStep v) q).get := by
  intro l
  induction l with
  | nil => intro p q hpq; exact hpq
  | cons m rest ih =>
    intro p q hpq
    rw [List.foldl_cons, List.foldl_cons]
    apply ih
    rw [actionStep, actionStep]
    split_ifs
    · exact fbvStep_get_eq v' v p q m hins hpq
    · exact hpq

/-- C2: (1) whenever the verb-level exclusion attribute resolves truthy,
`Operation._from` returns `None` — whatever every other attribute of the
view holds, so no other attribute extraction can matter; (2) the
resulting `Path` of a class view with a truthy `post_djagger_exclude` has
no `post` entry even when a `post` method and response schemas exist;
(3) the `get` operation of the `Path` is built entirely unaffected by the
presence or value of `post_djagger_exclude`. -/
theorem operation_exclusion_short_circuit :
    (∀ (v : View) (m : String),
        truthy (v.getattrD (m ++ "_djagger_exclude") (AttrValue.bool false)) = true →
        Operation_from v m = Option.none) ∧
    (∀ v : View, v.isClass = true → "post" ∈ v.methods →
        truthy (v.getattrD ("post" ++ "_djagger_exclude") (AttrValue.bool false)) = true →
        (Path_create v).post = Option.none) ∧
    (∀ (v : View) (x : AttrValue),
        (Path_create (addAttr v "post_djagger_exclude" x)).get = (Path_create v).get) := by
  have hA : ∀ (v : View) (m : String),
      truthy (v.getattrD (m ++ "_djagger_exclude") (AttrValue.bool false)) = true →
      Operation_from v m = Option.none := by
    intro v m h
    rw [Operation_from, if_pos h]
  refine ⟨hA, ?_, ?_⟩
  · intro v hclass hmem hexcl
    have hOp : Operation_from v "post" = Option.none := hA v "post" hexcl
    have hpost : ∀ p : PathObj, (classStep v p "post").post = p.post := by
      intro p
      rw [classStep, if_pos hmem, hOp]
    rw [Path_create, if_pos hclass, httpMethodValues]
    simp only [List.foldl_cons, List.foldl_nil]
    rw [classStep_post_ne v _ "head" (by decide),
      classStep_post_ne v _ "options" (by decide),
      classStep_post_ne v _ "put" (by decide),
      classStep_post_ne v _ "delete" (by decide),
      classStep_post_ne v _ "patch" (by decide),
      hpost,
      classStep_post_ne v _ "get" (by decide)]
    rfl
  · intro v x
    have hins := Operation_from_get_insensitive v x
    have hmeth : (addAttr v "post_djagger_exclude" x).methods = v.methods := rfl
    have hinit : (pathInit (addAttr v "post_djagger_exclude" x)).get = (pathInit v).get := rfl
    rw [Path_create, Path_create]
    have hclass : (addAttr v "post_djagger_exclude" x).isClass = v.isClass := rfl
    rw [hclass]
    by_cases hc : v.isClass = true
    · rw [if_pos hc, if_pos hc]
      exact foldl_classStep_get_eq _ v hins hmeth httpMethodValues _ _ hinit
    · rw [if_neg hc, if_neg hc]
      have hact : (addAttr v "post_djagger_exclude" x).actions = v.actions := rfl
      have hdjm : (addAttr v "post_djagger_exclude" x).djaggerHttpMethods =
          v.djaggerHttpMethods := rfl
      rw [hact, hdjm]
      have hp1 : ∀ p1 q1 : PathObj, p1.get = q1.get →
          (match v.djaggerHttpMethods with
           | Option.none => p1
           | some ms => ms.foldl (fbvStep (addAttr v "post_djagger_exclude" x)) p1).get =
          (match v.djaggerHttpMethods with
           | Option.none => q1
           | some ms => ms.foldl (fbvStep v) q1).get := by
        intro p1 q1 hq
        cases v.djaggerHttpMethods with
        | none => exact hq
        | some ms => exact foldl_fbvStep_get_eq _ v hins ms _ _ hq
      apply hp1
      cases v.actions with
      | none => exact hinit
      | some keys => exact foldl_actionStep_get_eq _ v hins keys _ _ hinit

/-- A one-field response model used by the C2 and C8 witnesses. -/
def simpleModel : PModel :=
  { name := "Simple"
    props := [("value", PType.prim "string")]
    required := ["value"]
    doc := some "A response." }

/-- A class view with `get` and `post` methods and an API-level response
schema. -/
def baseView : View :=
  { attrs := [("response_schema", AttrValue.model simpleModel)]
    name := "ItemView"
    module := "app1.views"
    doc := Option.none
    isClass := true
    methods := ["get", "post"]
    actions := Option.none
    djaggerHttpMethods := Option.none }

/-- `baseView` with `post_djagger_exclude = True`. -/
def exclView : View := addAttr baseView "post_djagger_exclude" (AttrValue.bool true)

/-- C2, witness: on a view with a `post` method, response schemas and
`post_djagger_exclude = True`, the POST operation is `None`, the path has
no `post`, and the GET operation is identical to the one built without
the exclusion attribute. -/
theorem operation_exclusion_short_circuit_witness :
    Operation_from exclView "post" = Option.none ∧
    (Path_create exclView).post = Option.none ∧
    (Path_create exclView).get = (Path_create baseView).get :=
  ⟨operation_exclusion_short_circuit.1 exclView "post" rfl,
   operation_exclusion_short_circuit.2.1 exclView rfl (by decide) rfl,
   operation_exclusion_short_circuit.2.2 baseView (AttrValue.bool true)⟩

/-! ### C8 — which routes enter the paths map -/

/-- A class view documenting only the `options` verb. -/
def optionsView : View :=
  { attrs := [("options_response_schema", AttrValue.model simpleModel)]
    name := "OptView"
    module := "app1.views"
    doc := Option.none
    isClass := true
    methods := ["options"]
    actions := Option.none
    djaggerHttpMethods := Option.none }

/-- C8, counterexample.  The claim says a route is kept whenever its Path
has at least one non-absent verb, including `options`, `head` or `trace`.
But `Document.generate` keeps a route only when one of
get/post/put/patch/delete is set: this view's Path documents `options`,
yet the generated paths map is empty. -/
theorem options_only_route_dropped :
    (Path_create optionsView).options.isSome = true ∧
    genPaths [("opt", optionsView)] = [] :=
  ⟨rfl, rfl⟩

theorem mem_keys_dictSet (d : List (String × PathObj)) (k : String) (val : PathObj)
    (k' : String) :
    k' ∈ (dictSet d k val).map Prod.fst ↔ k' = k ∨ k' ∈ d.map Prod.fst := by
  induction d with
  | nil => simp [dictSet]
  | cons p rest ih =>
    obtain ⟨k0, v0⟩ := p
    rw [dictSet]
    by_cases hk : k0 = k
    · subst hk
      rw [if_pos rfl]
      simp only [List.map_cons, List.mem_cons]
      tauto
    · rw [if_neg hk]
      simp only [List.map_cons, List.mem_cons, ih]
      tauto

theorem genPaths_go_mem (k : String) (routes : List (String × View)) :
    ∀ acc : List (String × PathObj),
    k ∈ (routes.foldl genStep acc).map Prod.fst ↔
      k ∈ acc.map Prod.fst ∨
      ∃ rv ∈ routes, "/" ++ rv.1 = k ∧ viewExcluded rv.2 = false ∧
        keepPath (Path_create rv.2) = true := by
  induction routes with
  | nil => intro acc; simp
  | cons rv rest ih =>
    intro acc
    rw [List.foldl_cons, ih]
    have hcons : ∀ P : (String × View) → Prop,
        (∃ q ∈ rv :: rest, P q) ↔ P rv ∨ ∃ q ∈ rest, P q := by
      intro P
      constructor
      · rintro ⟨q, hq, hP⟩
        rcases List.mem_cons.mp hq with h | h
        · exact Or.inl (h ▸ hP)
        · exact Or.inr ⟨q, h, hP⟩
      · rintro (h | ⟨q, hq, hP⟩)
        · exact ⟨rv, List.mem_cons_self _ _, h⟩
        · exact ⟨q, List.mem_cons_of_mem _ hq, hP⟩
    rw [hcons]
    by_cases hE : viewExcluded rv.2
    · rw [genStep, if_pos hE]
      have hE2 : ¬(viewExcluded rv.2 = false) := by simp [hE]
      tauto
    · have hE2 : viewExcluded rv.2 = false := by simpa using hE
      rw [genStep, if_neg hE]
      by_cases hK : keepPath (Path_create rv.2)
      · rw [if_pos hK, mem_keys_dictSet]
        constructor
        · rintro ((h | h) | h)
          · exact Or.inr (Or.inl ⟨h.symm, hE2, hK⟩)
          · exact Or.inl h
          · exact Or.inr (Or.inr h)
        · rintro (h | (⟨h1, _, _⟩ | h))
          · exact Or.inl (Or.inr h)
          · exact Or.inl (Or.inl h1.symm)
          · exact Or.inr h
      · rw [if_neg hK]
        have hK2 : ¬(keepPath (Path_create rv.2) = true) := hK
        tauto

/-- C8, amended.  A route enters the generated paths map (under the key
`"/" + route`) iff its view is not handler-level excluded and the built
`Path` has at least one of the five verbs get/post/put/patch/delete
non-absent (`keepPath`).  A route whose Path documents only `options` or
`head` is dropped, and `trace` can never be populated at all. -/
theorem generate_paths_keep_iff (routes : List (String × View)) (k : String) :
    k ∈ (genPaths routes).map Prod.fst ↔
      ∃ rv ∈ routes, "/" ++ rv.1 = k ∧ viewExcluded rv.2 = false ∧
        keepPath (Path_create rv.2) = true := by
  rw [genPaths, genPaths_go_mem]
  simp

/-! ### C10 — Components.merge -/

/-- Python dict assignment `d[k] = v` over JSON-valued dicts: an existing
key keeps its position with the new value, a new key is appended. -/
def dictSetJ (d : List (String × JVal)) (k : String) (v : JVal) :
    List (String × JVal) :=
  match d with
  | [] => [(k, v)]
  | (k0, v0) :: rest => if k0 = k then (k, v) :: rest else (k0, v0) :: dictSetJ rest k v

/-- Python `a.update(b)`: every entry of `b` assigned into `a`, in `b`'s
iteration order. -/
def dictUpdate (a b : List (String × JVal)) : List (String × JVal) :=
  b.foldl (fun acc kv => dictSetJ acc kv.1 kv.2) a

/-- `Components` (openapi.py): the nine section dicts.  The per-section
pydantic value types are opaque to `merge`, which only moves (deep)
copies of them around, so all sections are modelled with JSON values. -/
structure Components where
  schemas : List (String × JVal) := []
  responses : List (String × JVal) := []
  parameters : List (String × JVal) := []
  examples : List (String × JVal) := []
  requestBodies : List (String × JVal) := []
  headers : List (String × JVal) := []
  securitySchemes : List (String × JVal) := []
  links : List (String × JVal) := []
  callbacks : List (String × JVal) := []

/-- `Components.merge` (openapi.py): for every field of the model,
`getattr(self, field).update(copy.deepcopy(getattr(component, field)))`.
The deep copy means the merged entries share no structure with `b`; in
this pure model `merge` simply returns the updated `a` and leaves `b`
untouched by construction. -/
def Components.merge (a b : Components) : Components :=
  { schemas := dictUpdate a.schemas b.schemas
    responses := dictUpdate a.responses b.responses
    parameters := dictUpdate a.parameters b.parameters
    examples := dictUpdate a.examples b.examples
    requestBodies := dictUpdate a.requestBodies b.requestBodies
    headers := dictUpdate a.headers b.headers
    securitySchemes := dictUpdate a.securitySchemes b.securitySchemes
    links := dictUpdate a.links b.links
    callbacks := dictUpdate a.callbacks b.callbacks }

/-- The nine sections of a `Components`, by index. -/
def getSection (c : Components) : Fin 9 → List (String × JVal)
  | 0 => c.schemas
  | 1 => c.responses
  | 2 => c.parameters
  | 3 => c.examples
  | 4 => c.requestBodies
  | 5 => c.headers
  | 6 => c.securitySchemes
  | 7 => c.links
  | 8 => c.callbacks

theorem getSection_merge (a b : Components) (i : Fin 9) :
    getSection (Components.merge a b) i = dictUpdate (getSection a i) (getSection b i) := by
  fin_cases i <;> rfl

theorem jLookup_dictSetJ_self (d : List (String × JVal)) (k : String) (v : JVal) :
    jLookup (dictSetJ d k v) k = some v := by
  induction d with
  | nil => simp [dictSetJ, jLookup]
  | cons p rest ih =>
    obtain ⟨k0, v0⟩ := p
    rw [dictSetJ]
    by_cases hk : k0 = k
    · rw [if_pos hk, jLookup, if_pos rfl]
    · rw [if_neg hk, jLookup, if_neg hk]
      exact ih

theorem jLookup_dictSetJ_ne (d : List (String × JVal)) (k : String) (v : JVal)
    (k' : String) (h : k ≠ k') :
    jLookup (dictSetJ d k v) k' = jLookup d k' := by
  induction d with
  | nil => simp [dictSetJ, jLookup, h]
  | cons p rest ih =>
    obtain ⟨k0, v0⟩ := p
    rw [dictSetJ]
    by_cases hk : k0 = k
    · rw [if_pos hk, jLookup, if_neg h, jLookup, hk, if_neg h]
    · rw [if_neg hk, jLookup, jLookup]
      by_cases hk' : k0 = k'
      · rw [if_pos hk', if_pos hk']
      · rw [if_neg hk', if_neg hk']
        exact ih

theorem jLookup_dictUpdate_not_mem (b : List (String × JVal)) :
    ∀ (a : List (String × JVal)) (k : String), k ∉ b.map Prod.fst →
      jLookup (dictUpdate a b) k = jLookup a k := by
  induction b with
  | nil => intro a k _; rfl
  | cons p rest ih =>
    intro a k hk
    obtain ⟨k0, v0⟩ := p
    simp only [List.map_cons, List.mem_cons, not_or] at hk
    rw [dictUpdate, List.foldl_cons]
    have h2 := ih (dictSetJ a k0 v0) k hk.2
    rw [dictUpdate] at h2
    rw [h2, jLookup_dictSetJ_ne _ _ _ _ (fun he => hk.1 he.symm)]

theorem jLookup_dictUpdate_mem (b : List (String × JVal)) :
    ∀ (a : List (String × JVal)) (k : String), ((b.map Prod.fst).Nodup) →
      k ∈ b.map Prod.fst →
      jLookup (dictUpdate a b) k = jLookup b k := by
  induction b with
  | nil => intro a k _ hk; simp at hk
  | cons p rest ih =>
    intro a k hnd hk
    obtain ⟨k0, v0⟩ := p
    simp only [List.map_cons, List.nodup_cons] at hnd
    rw [dictUpdate, List.foldl_cons]
    by_cases hkk : k = k0
    · subst hkk
      have hnot : k ∉ rest.map Prod.fst := hnd.1
      have h2 := jLookup_dictUpdate_not_mem rest (dictSetJ a k v0) k hnot
      rw [dictUpdate] at h2
      rw [h2, jLookup_dictSetJ_self, jLookup, if_pos rfl]
    · have hmem : k ∈ rest.map Prod.fst := by
        rw [List.map_cons] at hk
        rcases List.mem_cons.mp hk with h | h
        · exact absurd h hkk
        · exact h
      have h2 := ih (dictSetJ a k0 v0) k hnd.2 hmem
      rw [dictUpdate] at h2
      rw [h2, jLookup, if_neg (fun he => hkk he.symm)]

/-- C10: after `a.merge(b)`, in every one of the nine sections, every key
of `b`'s section resolves in the merged section to `b`'s value, and every
key not in `b`'s section keeps `a`'s value (in particular keys only in
`a` are unchanged).  `b` is passed by value and never modified — the
source deep-copies every entry before the update, which is what makes
this pure-function model of `merge` faithful. -/
theorem components_merge_spec (a b : Components)
    (hb : ∀ i : Fin 9, ((getSection b i).map Prod.fst).Nodup) :
    ∀ (i : Fin 9) (k : String),
      (k ∈ (getSection b i).map Prod.fst →
        jLookup (getSection (Components.merge a b) i) k = jLookup (getSection b i) k) ∧
      (k ∉ (getSection b i).map Prod.fst →
        jLookup (getSection (Components.merge a b) i) k = jLookup (getSection a i) k) := by
  intro i k
  rw [getSection_merge]
  constructor
  · intro hk
    exact jLookup_dictUpdate_mem _ _ _ (hb i) hk
  · intro hk
    exact jLookup_dictUpdate_not_mem _ _ _ hk

/-- C10, witness: merging concrete components — the overlapping schema
key `X` takes `b`'s value, the key `Y` only in `a` keeps `a`'s value, and
the new key `Z` arrives from `b`. -/
theorem components_merge_spec_witness :
    jLookup (getSection (Components.merge
        { schemas := [("X", JVal.str "old"), ("Y", JVal.num 1)] }
        { schemas := [("X", JVal.str "new"), ("Z", JVal.bool true)] }) 0) "X" =
      some (JVal.str "new") ∧
    jLookup (getSection (Components.merge
        { schemas := [("X", JVal.str "old"), ("Y", JVal.num 1)] }
        { schemas := [("X", JVal.str "new"), ("Z", JVal.bool true)] }) 0) "Y" =
      some (JVal.num 1) ∧
    jLookup (getSection (Components.merge
        { schemas := [("X", JVal.str "old"), ("Y", JVal.num 1)] }
        { schemas := [("X", JVal.str "new"), ("Z", JVal.bool true)] }) 0) "Z" =
      some (JVal.bool true) := by
  refine ⟨?_, ?_, ?_⟩
  · rw [(components_merge_spec _ _ (by decide) 0 "X").1 (by decide)]
    rfl
  · rw [(components_merge_spec _ _ (by decide) 0 "Y").2 (by decide)]
    rfl
  · rw [(components_merge_spec _ _ (by decide) 0 "Z").1 (by decide)]
    rfl

end Djagger
